import Mathlib

/-!
# Todo list state manager (src/app.js)

A shallow embedding of the state manager of the single-page todo application:
the task collection, the mutating actions, the view projection and the
persistence of the collection as one JSON blob.

Conventions of the embedding.

* A JavaScript string is the list of its UTF-16 code units (`JsString`).
* The module-level variable `todos` and the item held by `localStorage` under
  `STORAGE_KEY` are carried in an explicit `State`; every action is a function
  `State → State`.  The field `writes` counts the calls of
  `localStorage.setItem` performed so far.
* `render()` only reads `todos` and `ui` and paints the page; it changes neither
  and is left out.
* `Math.random()` and `Date.now()` are inputs of `addTodo` (`AddEnv`).
* `String.prototype.toLowerCase` is an argument of `filteredTodos`.
* `JSON.stringify` follows SerializeJSONArray, SerializeJSONObject and
  QuoteJSONString of ECMA-262 on an array of task objects; `JSON.parse` follows
  the JSON grammar of ECMA-262.  A parsed number is kept as sign, decimal
  mantissa and decimal exponent (binary rounding is outside the model); the
  members of a parsed object are kept as the list written in the text.
* `localStorage.setItem` is taken to succeed.
-/

namespace TodoApp

/-! ## Strings -/

/-- A JavaScript string: the list of its UTF-16 code units. -/
abbrev JsString := List Nat

/-- UTF-16 code units of one Unicode scalar value. -/
def utf16 (c : Char) : List Nat :=
  if c.toNat < 0x10000 then [c.toNat]
  else [0xD800 + (c.toNat - 0x10000) / 0x400, 0xDC00 + (c.toNat - 0x10000) % 0x400]

/-- The JavaScript string written as a literal. -/
def js (s : String) : JsString := s.toList.flatMap utf16

/-- ECMA-262 WhiteSpace and LineTerminator code units, the set removed by
`String.prototype.trim`. -/
def isWhiteSpace (u : Nat) : Bool :=
  u == 0x09 || u == 0x0A || u == 0x0B || u == 0x0C || u == 0x0D || u == 0x20 ||
  u == 0xA0 || u == 0x1680 || (0x2000 ≤ u && u ≤ 0x200A) || u == 0x2028 ||
  u == 0x2029 || u == 0x202F || u == 0x205F || u == 0x3000 || u == 0xFEFF

/-- The method `String.prototype.trimStart`. -/
def trimStart (s : JsString) : JsString := s.dropWhile isWhiteSpace

/-- The method `String.prototype.trim`: white space removed from both ends. -/
def trim (s : JsString) : JsString :=
  (trimStart (trimStart s).reverse).reverse

/-- The method `String.prototype.includes`: does `q` occur in `s` as a run of
consecutive code units. -/
def includes : JsString → JsString → Bool
  | [], q => q.isEmpty
  | a :: s, q => q.isPrefixOf (a :: s) || includes s q

/-- The method `String.prototype.slice(start, end)`; `none` for an omitted
`end`. -/
def slice (s : JsString) (start : Int) (stop : Option Int) : JsString :=
  let len : Int := s.length
  let clamp (i : Int) : Int := if i < 0 then max (len + i) 0 else min i len
  let a := clamp start
  let b := match stop with
    | none => len
    | some e => clamp e
  (s.drop a.toNat).take (b - a).toNat

/-- The digit of value `d` in radix 36: `0`-`9`, then `a`-`z`. -/
def digit36 (d : Nat) : Nat := if d < 10 then 48 + d else 87 + d

/-- Digits of `n` in radix `b`, most significant first, by repeated division. -/
def radixDigits (b : Nat) : Nat → Nat → List Nat
  | 0, _ => []
  | fuel + 1, n => if n < b then [n] else radixDigits b fuel (n / b) ++ [n % b]

/-- The text `Number.prototype.toString(36)` gives for a non-negative integer. -/
def toString36 (n : Nat) : JsString := (radixDigits 36 (n + 1) n).map digit36

/-- The text `Number.prototype.toString()` gives for a non-negative integer
below `10^21` (every value of `Date.now()` is one): its decimal numeral. -/
def decimal (n : Nat) : JsString := (radixDigits 10 (n + 1) n).map (48 + ·)

/-! ## Data model -/

/-- One entry of `todos`.  `createdAt` is a reading of `Date.now()`, a
non-negative integer number of milliseconds; `due` is `none` when the property
is absent. -/
structure Task where
  id : JsString
  text : JsString
  completed : Bool
  createdAt : Nat
  due : Option JsString
  deriving DecidableEq, Repr

/-- The `ui` object: current filter chip and search text. -/
structure Ui where
  filter : JsString
  search : JsString
  deriving DecidableEq, Repr

/-! ## JSON text -/

/-- Four lower-case hexadecimal digits of a code unit. -/
def hex4 (u : Nat) : JsString :=
  [digit36 (u / 4096 % 16), digit36 (u / 256 % 16), digit36 (u / 16 % 16), digit36 (u % 16)]

def isHighSurrogate (u : Nat) : Bool := 0xD800 ≤ u && u ≤ 0xDBFF

def isLowSurrogate (u : Nat) : Bool := 0xDC00 ≤ u && u ≤ 0xDFFF

/-- UnicodeEscape of ECMA-262: a backslash, `u` and four hexadecimal digits. -/
def unicodeEscape (u : Nat) : JsString := 0x5C :: 0x75 :: hex4 u

/-- QuoteJSONString on one code unit that is not part of a surrogate pair. -/
def quoteUnit (u : Nat) : JsString :=
  if u = 0x08 then [0x5C, 0x62]
  else if u = 0x09 then [0x5C, 0x74]
  else if u = 0x0A then [0x5C, 0x6E]
  else if u = 0x0C then [0x5C, 0x66]
  else if u = 0x0D then [0x5C, 0x72]
  else if u = 0x22 then [0x5C, 0x22]
  else if u = 0x5C then [0x5C, 0x5C]
  else if u < 0x20 || isHighSurrogate u || isLowSurrogate u then unicodeEscape u
  else [u]

/-- QuoteJSONString without the surrounding quotes: a well-formed surrogate pair
is copied, every other code unit goes through `quoteUnit`. -/
def quoteUnits : JsString → JsString
  | [] => []
  | [u] => quoteUnit u
  | u :: v :: rest =>
    if isHighSurrogate u && isLowSurrogate v then u :: v :: quoteUnits rest
    else quoteUnit u ++ quoteUnits (v :: rest)

/-- QuoteJSONString. -/
def quoteJSONString (s : JsString) : JsString := 0x22 :: quoteUnits s ++ [0x22]

/-- The texts joined with a comma between them (the separator of
SerializeJSONObject and SerializeJSONArray). -/
def joinComma : List JsString → JsString
  | [] => []
  | [x] => x
  | x :: y :: rest => x ++ 0x2C :: joinComma (y :: rest)

/-- One member of SerializeJSONObject: the quoted key, a colon and the
serialised value. -/
def member (key : String) (value : JsString) : JsString :=
  quoteJSONString (js key) ++ 0x3A :: value

/-- The members `JSON.stringify` writes for a task object: the properties in the
order in which `addTodo` creates them; an absent `due` is left out. -/
def taskMembers (t : Task) : List JsString :=
  [member "id" (quoteJSONString t.id),
    member "text" (quoteJSONString t.text),
    member "completed" (if t.completed then js "true" else js "false"),
    member "createdAt" (decimal t.createdAt)] ++
  match t.due with
  | none => []
  | some d => [member "due" (quoteJSONString d)]

/-- The text `JSON.stringify` writes for one task object. -/
def stringifyTask (t : Task) : JsString :=
  0x7B :: joinComma (taskMembers t) ++ [0x7D]

/-- The text `JSON.stringify(todos)` for an array of task objects. -/
def stringify (todos : List Task) : JsString :=
  0x5B :: joinComma (todos.map stringifyTask) ++ [0x5D]

/-- A value produced by `JSON.parse`.  A number is kept as its sign, decimal
mantissa and decimal exponent; the members of an object are kept in the order
of the text. -/
inductive Json where
  | null
  | bool (b : Bool)
  | num (negative : Bool) (mantissa : Nat) (exponent : Int)
  | str (s : JsString)
  | arr (items : List Json)
  | obj (members : List (JsString × Json))

/-- JSON white space: tab, line feed, carriage return, space. -/
def isJsonSpace (u : Nat) : Bool := u == 0x09 || u == 0x0A || u == 0x0D || u == 0x20

def skipSpace (s : JsString) : JsString := s.dropWhile isJsonSpace

def isDigit (u : Nat) : Bool := 48 ≤ u && u ≤ 57

/-- Value of a hexadecimal digit, either case. -/
def hexValue (u : Nat) : Option Nat :=
  if isDigit u then some (u - 48)
  else if 97 ≤ u ∧ u ≤ 102 then some (u - 87)
  else if 65 ≤ u ∧ u ≤ 70 then some (u - 55)
  else none

/-- The code unit denoted by a single-character escape of a JSON string. -/
def unescape (e : Nat) : Option Nat :=
  if e = 0x22 then some 0x22
  else if e = 0x2F then some 0x2F
  else if e = 0x5C then some 0x5C
  else if e = 0x62 then some 0x08
  else if e = 0x66 then some 0x0C
  else if e = 0x6E then some 0x0A
  else if e = 0x72 then some 0x0D
  else if e = 0x74 then some 0x09
  else none

/-- The characters of a JSON string after the opening quote, up to and
including the closing quote: the decoded string and the remaining input. -/
def parseChars : JsString → Option (JsString × JsString)
  | [] => none
  | u :: rest =>
    if u = 0x22 then some ([], rest)
    else if u = 0x5C then
      match rest with
      | [] => none
      | e :: rest1 =>
        if e = 0x75 then
          match rest1 with
          | a :: b :: c :: d :: rest2 =>
            match hexValue a, hexValue b, hexValue c, hexValue d with
            | some a, some b, some c, some d =>
              (parseChars rest2).map fun p => ((4096 * a + 256 * b + 16 * c + d) :: p.1, p.2)
            | _, _, _, _ => none
          | _ => none
        else
          match unescape e with
          | some v => (parseChars rest1).map fun p => (v :: p.1, p.2)
          | none => none
    else if u < 0x20 then none
    else (parseChars rest).map fun p => (u :: p.1, p.2)

/-- The number written by a run of decimal digits. -/
def digitsValue (ds : List Nat) : Nat := ds.foldl (fun acc d => 10 * acc + (d - 48)) 0

/-- An optional fraction: a point and at least one digit. -/
def parseFraction (s : JsString) : Option (List Nat × JsString) :=
  match s with
  | [] => some ([], [])
  | u :: r =>
    if u = 0x2E then
      if (r.takeWhile isDigit).isEmpty then none
      else some (r.takeWhile isDigit, r.dropWhile isDigit)
    else some ([], u :: r)

/-- The optional sign of an exponent: its factor and the input after it. -/
def exponentSign (r : JsString) : Int × JsString :=
  match r with
  | [] => (1, [])
  | v :: r1 => if v = 0x2B then (1, r1) else if v = 0x2D then (-1, r1) else (1, v :: r1)

/-- An optional exponent: `e` or `E`, an optional sign and at least one digit. -/
def parseExponent (s : JsString) : Option (Int × JsString) :=
  match s with
  | [] => some (0, [])
  | u :: r =>
    if u = 0x65 ∨ u = 0x45 then
      let signed := exponentSign r
      if (signed.2.takeWhile isDigit).isEmpty then none
      else some (signed.1 * digitsValue (signed.2.takeWhile isDigit),
        signed.2.dropWhile isDigit)
    else some (0, u :: r)

/-- The integer part of a number that starts with the digit `d`: a single zero,
or a run of digits that does not start with zero. -/
def wholePart (d : Nat) (r : JsString) : List Nat × JsString :=
  if d = 48 then ([d], r) else (d :: r.takeWhile isDigit, r.dropWhile isDigit)

/-- A JSON number after its optional minus sign. -/
def parseUnsigned (negative : Bool) (s : JsString) : Option (Json × JsString) :=
  match s with
  | [] => none
  | d :: r =>
    if isDigit d then
      let whole := wholePart d r
      match parseFraction whole.2 with
      | none => none
      | some (fraction, s3) =>
        match parseExponent s3 with
        | none => none
        | some (e, s4) =>
          some (.num negative (digitsValue (whole.1 ++ fraction)) (e - fraction.length), s4)
    else none

/-- A JSON number. -/
def parseNumber (s : JsString) : Option (Json × JsString) :=
  match s with
  | [] => none
  | u :: r => if u = 0x2D then parseUnsigned true r else parseUnsigned false (u :: r)

mutual
/-- A JSON value, with leading white space: the value and the remaining input.
The first argument bounds the depth of the descent. -/
def parseValue : Nat → JsString → Option (Json × JsString)
  | 0, _ => none
  | fuel + 1, input =>
    match skipSpace input with
    | [] => none
    | u :: rest =>
      if u = 0x22 then (parseChars rest).map fun p => (.str p.1, p.2)
      else if u = 0x5B then
        match skipSpace rest with
        | [] => none
        | v :: rest1 =>
          if v = 0x5D then some (.arr [], rest1)
          else (parseItems fuel (v :: rest1)).map fun p => (.arr p.1, p.2)
      else if u = 0x7B then
        match skipSpace rest with
        | [] => none
        | v :: rest1 =>
          if v = 0x7D then some (.obj [], rest1)
          else (parseMembers fuel (v :: rest1)).map fun p => (.obj p.1, p.2)
      else if u = 0x2D ∨ isDigit u = true then parseNumber (u :: rest)
      else if (js "true").isPrefixOf (u :: rest) then some (.bool true, rest.drop 3)
      else if (js "false").isPrefixOf (u :: rest) then some (.bool false, rest.drop 4)
      else if (js "null").isPrefixOf (u :: rest) then some (.null, rest.drop 3)
      else none
/-- The elements of a non-empty array, up to and including the closing bracket. -/
def parseItems : Nat → JsString → Option (List Json × JsString)
  | 0, _ => none
  | fuel + 1, input =>
    match parseValue fuel input with
    | none => none
    | some (v, rest) =>
      match skipSpace rest with
      | [] => none
      | u :: rest1 =>
        if u = 0x2C then (parseItems fuel rest1).map fun p => (v :: p.1, p.2)
        else if u = 0x5D then some ([v], rest1)
        else none
/-- The members of a non-empty object, up to and including the closing brace. -/
def parseMembers : Nat → JsString → Option (List (JsString × Json) × JsString)
  | 0, _ => none
  | fuel + 1, input =>
    match skipSpace input with
    | [] => none
    | q :: rest =>
      if q = 0x22 then
        match parseChars rest with
        | none => none
        | some (key, rest1) =>
          match skipSpace rest1 with
          | [] => none
          | c :: rest2 =>
            if c = 0x3A then
              match parseValue fuel rest2 with
              | none => none
              | some (v, rest3) =>
                match skipSpace rest3 with
                | [] => none
                | u :: rest4 =>
                  if u = 0x2C then
                    (parseMembers fuel rest4).map fun p => ((key, v) :: p.1, p.2)
                  else if u = 0x7D then some ([(key, v)], rest4)
                  else none
            else none
      else none
end

/-- The value of a JSON text, `none` when `JSON.parse` throws a SyntaxError:
one value, white space around it, nothing else.  The descent into nested
values consumes input at least every second step, so the depth bound is never
what makes the result `none` (`parseValue_bound_enough`). -/
def parse (text : JsString) : Option Json :=
  match parseValue (2 * text.length + 2) text with
  | none => none
  | some (v, rest) => if (skipSpace rest).isEmpty then some v else none

/-- The input after a number does not continue it. -/
def NumberEnd (rest : JsString) : Prop :=
  ∀ u r, rest = u :: r → isDigit u = false ∧ u ≠ 0x2E ∧ u ≠ 0x65 ∧ u ≠ 0x45

/-- The input ends, or goes on with a comma, a closing brace or a closing
bracket. -/
def Delimited (rest : JsString) : Prop :=
  rest = [] ∨ ∃ u r, rest = u :: r ∧ (u = 0x2C ∨ u = 0x7D ∨ u = 0x5D)

/-- The text is read back as the value `v`, whatever delimited input follows,
as soon as the depth bound is at least `k`. -/
def ParsesTo (k : Nat) (text : JsString) (v : Json) : Prop :=
  ∀ fuel, k ≤ fuel → ∀ rest, Delimited rest → parseValue fuel (text ++ rest) = some (v, rest)

/-- The object `addTodo` builds for a task, as a JSON value. -/
def Task.toJson (t : Task) : Json :=
  .obj ([(js "id", .str t.id), (js "text", .str t.text), (js "completed", .bool t.completed),
      (js "createdAt", .num false t.createdAt 0)] ++
    match t.due with
    | none => []
    | some d => [(js "due", .str d)])

/-- Key, serialised value and value of each member written for a task. -/
def taskTriples (t : Task) : List (JsString × JsString × Json) :=
  [(js "id", quoteJSONString t.id, .str t.id),
    (js "text", quoteJSONString t.text, .str t.text),
    (js "completed", if t.completed then js "true" else js "false", .bool t.completed),
    (js "createdAt", decimal t.createdAt, .num false t.createdAt 0)] ++
  match t.due with
  | none => []
  | some d => [(js "due", quoteJSONString d, .str d)]

/-- The array `todos` as a JSON value. -/
def todosToJson (todos : List Task) : Json := .arr (todos.map Task.toJson)

/-! ## State and actions -/

/-- The module state: `todos`, the `localStorage` item under `STORAGE_KEY`
(`none` when the key is missing) and the number of `setItem` calls so far. -/
structure State where
  todos : List Task
  storage : Option JsString
  writes : Nat
  deriving DecidableEq, Repr

/-- What one call of `addTodo` reads from its environment: the text of
`Math.random().toString(36)` and the two readings of `Date.now()`. -/
structure AddEnv where
  random36 : JsString
  nowUid : Nat
  nowCreated : Nat
  deriving DecidableEq, Repr

/-- The function `uid`:
`Math.random().toString(36).slice(2, 10) + Date.now().toString(36).slice(-4)`. -/
def uid (random36 : JsString) (now : Nat) : JsString :=
  slice random36 2 (some 10) ++ slice (toString36 now) (-4) none

/-- The function `save`: `localStorage.setItem(STORAGE_KEY, JSON.stringify(todos))`. -/
def save (s : State) : State :=
  { s with storage := some (stringify s.todos), writes := s.writes + 1 }

/-- The expression `x || ''` for `x` a string or `undefined`. -/
def orEmpty : Option JsString → JsString
  | none => []
  | some d => d

/-- The function `filteredTodos`. -/
def filteredTodos (toLowerCase : JsString → JsString) (ui : Ui) (todos : List Task) :
    List Task :=
  let q := toLowerCase (trim ui.search)
  todos.filter fun t =>
    let matchesText := q.isEmpty || includes (toLowerCase t.text) q
    let matchesFilter :=
      if ui.filter = js "all" then true
      else if ui.filter = js "active" then !t.completed
      else t.completed
    matchesText && matchesFilter

/-- The task object assigned through the reference `todos.find(x => x.id === id)`:
the first task with that id is replaced by its image under `f`. -/
def assignFirst (id : JsString) (f : Task → Task) : List Task → List Task
  | [] => []
  | t :: rest => if t.id = id then f t :: rest else t :: assignFirst id f rest

/-- The index returned by `Array.prototype.findIndex`; `none` stands for `-1`. -/
def findIndex (p : Task → Bool) : List Task → Option Nat
  | [] => none
  | t :: rest => if p t then some 0 else (findIndex p rest).map (· + 1)

/-- The function `addTodo`. -/
def addTodo (env : AddEnv) (text : JsString) (due : Option JsString) (s : State) : State :=
  let t : Task :=
    { id := uid env.random36 env.nowUid
      text := trim text
      completed := false
      createdAt := env.nowCreated
      due := some (orEmpty due) }
  save { s with todos := t :: s.todos }

/-- The function `toggleTodo`. -/
def toggleTodo (id : JsString) (completed : Bool) (s : State) : State :=
  match s.todos.find? (fun x => x.id = id) with
  | some _ =>
    save { s with todos := assignFirst id (fun t => { t with completed := completed }) s.todos }
  | none => s

/-- The function `deleteTodo`: `findIndex`, then `splice(i, 1)`. -/
def deleteTodo (id : JsString) (s : State) : State :=
  match findIndex (fun x => x.id = id) s.todos with
  | some i => save { s with todos := s.todos.eraseIdx i }
  | none => s

/-- The function `updateTodoText`. -/
def updateTodoText (id : JsString) (newText : JsString) (s : State) : State :=
  match s.todos.find? (fun x => x.id = id) with
  | some _ =>
    if (trim newText).isEmpty then s
    else save { s with todos := assignFirst id (fun t => { t with text := trim newText }) s.todos }
  | none => s

/-- The function `updateTodoDue`. -/
def updateTodoDue (id : JsString) (newDue : Option JsString) (s : State) : State :=
  match s.todos.find? (fun x => x.id = id) with
  | some _ =>
    save { s with todos := assignFirst id (fun t => { t with due := some (orEmpty newDue) }) s.todos }
  | none => s

/-- The function `clearCompleted`. -/
def clearCompleted (s : State) : State :=
  let before := s.todos.length
  let s1 := { s with todos := s.todos.filter fun t => !t.completed }
  if s1.todos.length ≠ before then save s1 else s1

/-- The `submit` listener of the add form, up to the call of `addTodo` (what
follows only resets the input widgets). -/
def submit (env : AddEnv) (inputValue dueValue : JsString) (s : State) : State :=
  if (trim inputValue).isEmpty then s else addTodo env inputValue (some dueValue) s

/-- One call of an action of the store. -/
inductive Action where
  | add (env : AddEnv) (text : JsString) (due : Option JsString)
  | toggle (id : JsString) (completed : Bool)
  | delete (id : JsString)
  | editText (id : JsString) (newText : JsString)
  | editDue (id : JsString) (newDue : Option JsString)
  | clear
  deriving DecidableEq, Repr

/-- The effect of one action. -/
def step (s : State) : Action → State
  | .add env text due => addTodo env text due s
  | .toggle id completed => toggleTodo id completed s
  | .delete id => deleteTodo id s
  | .editText id newText => updateTodoText id newText s
  | .editDue id newDue => updateTodoDue id newDue s
  | .clear => clearCompleted s

/-- The effect of a sequence of actions, first to last. -/
def run (s : State) (actions : List Action) : State := actions.foldl step s

/-- The state before `load`: `let todos = []`, with the given storage item. -/
def initial (storage : Option JsString) : State :=
  { todos := [], storage := storage, writes := 0 }

/-- Every `add` of the sequence draws an id that no task of the collection has
at that moment. -/
def freshIds : State → List Action → Bool
  | _, [] => true
  | s, .add env text due :: rest =>
    decide (uid env.random36 env.nowUid ∉ s.todos.map Task.id) &&
      freshIds (addTodo env text due s) rest
  | s, a :: rest => freshIds (step s a) rest

/-- The environments read by the `add` calls of a sequence, in order. -/
def addEnvs : List Action → List AddEnv
  | [] => []
  | .add env _ _ :: rest => env :: addEnvs rest
  | _ :: rest => addEnvs rest

/-- What `uid` keeps of its two readings: the characters 2 to 10 of the random
text and the clock reading modulo `36^4`. -/
def idKey (env : AddEnv) : JsString × Nat :=
  (slice env.random36 2 (some 10), env.nowUid % 36 ^ 4)

/-- How a statement ends: normally with a value, or abruptly by a throw. -/
inductive Outcome (α : Type) where
  | returned (value : α)
  | threw

/-- What `localStorage.getItem(STORAGE_KEY)` does: it throws (storage not
accessible), returns `null` (no such key) or returns the stored string. -/
inductive StorageRead where
  | denied
  | missing
  | item (raw : JsString)

/-- The read that `load` performs on the storage of a state. -/
def readStorage (s : State) : StorageRead :=
  match s.storage with
  | none => .missing
  | some raw => .item raw

/-- The call `JSON.parse(raw)`. -/
def jsonParse (raw : JsString) : Outcome Json :=
  match parse raw with
  | some v => .returned v
  | none => .threw

/-- The function `load`: how the call ends, with the value it assigns to
`todos`.  The body of the `try` is evaluated first; when it throws, the `catch`
clause assigns the empty array. -/
def load (read : StorageRead) : Outcome Json :=
  let body : Outcome Json :=
    match read with
    | .denied => .threw
    | .missing => .returned (.arr [])
    | .item raw => if raw.isEmpty then .returned (.arr []) else jsonParse raw
  match body with
  | .returned v => .returned v
  | .threw => .returned (.arr [])

/-- Reading of the spec: a task is shown when its lower-cased text contains the
lower-cased trimmed search text and its completed flag matches the filter. -/
def MatchesSpec (toLowerCase : JsString → JsString) (ui : Ui) (t : Task) : Prop :=
  toLowerCase (trim ui.search) <:+: toLowerCase t.text ∧
    (ui.filter = js "all" ∨ (ui.filter = js "active" ∧ t.completed = false) ∨
      (ui.filter = js "completed" ∧ t.completed = true))

instance (toLowerCase : JsString → JsString) (ui : Ui) :
    DecidablePred (MatchesSpec toLowerCase ui) :=
  fun _ => inferInstanceAs (Decidable (_ ∧ _))

/-- ASCII lower-casing, the restriction of `toLowerCase` to code units below
128; used for concrete instances only. -/
def asciiLower (s : JsString) : JsString :=
  s.map fun u => if 65 ≤ u ∧ u ≤ 90 then u + 32 else u

/-- The two-task collection of the filter example of the spec. -/
def exampleTodos : List Task :=
  [⟨js "1", js "buy milk", false, 1, some []⟩, ⟨js "2", js "call mom", true, 2, some []⟩]

/-! ## Lemmas on the list helpers -/

theorem includes_iff (s q : JsString) : includes s q = true ↔ q <:+: s := by
  induction s with
  | nil =>
    cases q <;> simp [includes]
  | cons a s ih =>
    simp only [includes, Bool.or_eq_true, ih, List.isPrefixOf_iff_prefix, List.infix_cons_iff]

theorem find_none_iff (id : JsString) (l : List Task) :
    l.find? (fun x => x.id = id) = none ↔ ∀ t ∈ l, t.id ≠ id := by
  simp [List.find?_eq_none]

theorem assignFirst_of_absent (id : JsString) (f : Task → Task) (l : List Task)
    (h : ∀ t ∈ l, t.id ≠ id) : assignFirst id f l = l := by
  induction l with
  | nil => rfl
  | cons t rest ih =>
    have ht : t.id ≠ id := h t (List.mem_cons_self _ _)
    simp only [assignFirst, ht, if_false]
    rw [ih (fun x hx => h x (List.mem_cons_of_mem _ hx))]

theorem assignFirst_ids (id : JsString) (f : Task → Task) (hf : ∀ t, (f t).id = t.id)
    (l : List Task) : (assignFirst id f l).map Task.id = l.map Task.id := by
  induction l with
  | nil => rfl
  | cons t rest ih =>
    by_cases ht : t.id = id
    · simp [assignFirst, ht, hf]
    · simp [assignFirst, ht, ih]

theorem assignFirst_length (id : JsString) (f : Task → Task) (l : List Task) :
    (assignFirst id f l).length = l.length := by
  induction l with
  | nil => rfl
  | cons t rest ih =>
    by_cases ht : t.id = id
    · simp [assignFirst, ht]
    · simp [assignFirst, ht, ih]

theorem assignFirst_others (id : JsString) (f : Task → Task) (l : List Task) :
    ∀ (i : Nat) (t : Task), l[i]? = some t → t.id ≠ id → (assignFirst id f l)[i]? = some t := by
  induction l with
  | nil => intro i t h; simp at h
  | cons a rest ih =>
    intro i t h hne
    by_cases ha : a.id = id
    · cases i with
      | zero =>
        simp only [List.getElem?_cons_zero, Option.some.injEq] at h
        subst h
        exact absurd ha hne
      | succ j =>
        simp only [List.getElem?_cons_succ] at h
        simp [assignFirst, ha, h]
    · cases i with
      | zero =>
        simp only [List.getElem?_cons_zero, Option.some.injEq] at h
        subst h
        simp [assignFirst, ha]
      | succ j =>
        simp only [List.getElem?_cons_succ] at h
        simp [assignFirst, ha, ih j t h hne]

theorem assignFirst_split (id : JsString) (f : Task → Task) (l : List Task) (t : Task)
    (h : l.find? (fun x => x.id = id) = some t) :
    ∃ pre post, l = pre ++ t :: post ∧ (∀ x ∈ pre, x.id ≠ id) ∧ t.id = id ∧
      assignFirst id f l = pre ++ f t :: post := by
  induction l with
  | nil => simp at h
  | cons a rest ih =>
    by_cases ha : a.id = id
    · simp only [List.find?_cons, ha, decide_True, Option.some.injEq] at h
      subst h
      exact ⟨[], rest, rfl, by simp, ha, by simp [assignFirst, ha]⟩
    · simp only [List.find?_cons, ha, decide_False] at h
      obtain ⟨pre, post, h1, h2, h3, h4⟩ := ih h
      refine ⟨a :: pre, post, by simp [h1], ?_, h3, by simp [assignFirst, ha, h4]⟩
      intro x hx
      rcases List.mem_cons.1 hx with rfl | hx
      · exact ha
      · exact h2 x hx

theorem findIndex_none_iff (id : JsString) (l : List Task) :
    findIndex (fun x => x.id = id) l = none ↔ ∀ t ∈ l, t.id ≠ id := by
  induction l with
  | nil => simp [findIndex]
  | cons a rest ih =>
    by_cases ha : a.id = id
    · simp [findIndex, ha]
    · simp [findIndex, ha, ih]

theorem eraseIdx_findIndex (id : JsString) (l : List Task) (hl : (l.map Task.id).Nodup)
    (i : Nat) (hi : findIndex (fun x => x.id = id) l = some i) :
    l.eraseIdx i = l.filter (fun t => t.id ≠ id) := by
  induction l generalizing i with
  | nil => simp [findIndex] at hi
  | cons a rest ih =>
    simp only [List.map_cons, List.nodup_cons] at hl
    by_cases ha : a.id = id
    · simp only [findIndex, ha, decide_True, if_true, Option.some.injEq] at hi
      subst hi
      have hrest : ∀ t ∈ rest, t.id ≠ id := by
        intro t ht hid
        exact hl.1 (by rw [ha, ← hid]; exact List.mem_map_of_mem _ ht)
      have hfil : rest.filter (fun t => !decide (t.id = id)) = rest := by
        rw [List.filter_eq_self]
        intro t ht
        simpa using hrest t ht
      simp [List.filter_cons, ha, hfil]
    · simp only [findIndex, ha, decide_False] at hi
      cases hj : findIndex (fun x => x.id = id) rest with
      | none => simp [hj] at hi
      | some j =>
        rw [hj] at hi
        simp at hi
        subst hi
        simp [List.eraseIdx_cons_succ, List.filter_cons, ha, ih hl.2 j hj]

theorem clearCompleted_todos (s : State) :
    (clearCompleted s).todos = s.todos.filter (fun t => !t.completed) := by
  unfold clearCompleted
  simp only
  split <;> rfl

theorem step_ids_nodup (s : State) (a : Action) (hs : (s.todos.map Task.id).Nodup)
    (hfresh : ∀ env text due, a = .add env text due →
      uid env.random36 env.nowUid ∉ s.todos.map Task.id) :
    ((step s a).todos.map Task.id).Nodup := by
  cases a with
  | add env text due =>
    have h := hfresh env text due rfl
    simp only [step, addTodo, save, List.map_cons, List.nodup_cons]
    exact ⟨h, hs⟩
  | toggle id completed =>
    simp only [step, toggleTodo]
    split
    · simp only [save]
      rw [assignFirst_ids]
      · exact hs
      · intro t; rfl
    · exact hs
  | delete id =>
    simp only [step, deleteTodo]
    split
    · simp only [save]
      exact hs.sublist ((List.eraseIdx_sublist _ _).map _)
    · exact hs
  | editText id newText =>
    simp only [step, updateTodoText]
    split
    · split
      · exact hs
      · simp only [save]
        rw [assignFirst_ids]
        · exact hs
        · intro t; rfl
    · exact hs
  | editDue id newDue =>
    simp only [step, updateTodoDue]
    split
    · simp only [save]
      rw [assignFirst_ids]
      · exact hs
      · intro t; rfl
    · exact hs
  | clear =>
    simp only [step, clearCompleted_todos]
    exact hs.sublist ((List.filter_sublist _).map _)

theorem run_ids_nodup (actions : List Action) :
    ∀ s : State, (s.todos.map Task.id).Nodup → freshIds s actions = true →
      ((run s actions).todos.map Task.id).Nodup := by
  induction actions with
  | nil => intro s hs _; exact hs
  | cons a rest ih =>
    intro s hs hf
    have hrun : run s (a :: rest) = run (step s a) rest := rfl
    rw [hrun]
    cases a with
    | add env text due =>
      simp only [freshIds, Bool.and_eq_true, decide_eq_true_eq] at hf
      exact ih _ (step_ids_nodup s _ hs (by
        intro e t d he
        cases he
        exact hf.1)) hf.2
    | toggle id completed =>
      exact ih _ (step_ids_nodup s _ hs (by intro e t d he; cases he)) hf
    | delete id =>
      exact ih _ (step_ids_nodup s _ hs (by intro e t d he; cases he)) hf
    | editText id newText =>
      exact ih _ (step_ids_nodup s _ hs (by intro e t d he; cases he)) hf
    | editDue id newDue =>
      exact ih _ (step_ids_nodup s _ hs (by intro e t d he; cases he)) hf
    | clear =>
      exact ih _ (step_ids_nodup s _ hs (by intro e t d he; cases he)) hf

theorem matchesText_iff (q text : JsString) :
    (q.isEmpty || includes text q) = true ↔ q <:+: text := by
  cases q with
  | nil => simp
  | cons a q => simp [includes_iff]

theorem filter_pred_eq (toLowerCase : JsString → JsString) (ui : Ui) (t : Task)
    (hmode : ui.filter = js "all" ∨ ui.filter = js "active" ∨ ui.filter = js "completed") :
    (((toLowerCase (trim ui.search)).isEmpty ||
        includes (toLowerCase t.text) (toLowerCase (trim ui.search))) &&
      (if ui.filter = js "all" then true
        else if ui.filter = js "active" then !t.completed else t.completed))
      = decide (MatchesSpec toLowerCase ui t) := by
  have h1 : js "active" ≠ js "all" := by decide
  have h2 : js "completed" ≠ js "all" := by decide
  have h3 : js "completed" ≠ js "active" := by decide
  rw [Bool.eq_iff_iff]
  simp only [Bool.and_eq_true, matchesText_iff, decide_eq_true_eq, MatchesSpec]
  rcases hmode with h | h | h
  · simp [h]
  · simp [h, h1, h1.symm, h3, h3.symm]
  · simp [h, h2, h3, h2.symm, h3.symm]

/-! ## Lemmas on JSON text -/

theorem skipSpace_cons (u : Nat) (r : JsString) (h : isJsonSpace u = false) :
    skipSpace (u :: r) = u :: r := by
  simp [skipSpace, List.dropWhile_cons, h]

theorem isDigit_iff (u : Nat) : isDigit u = true ↔ 48 ≤ u ∧ u ≤ 57 := by
  simp [isDigit]

theorem isDigit_false_iff (u : Nat) : isDigit u = false ↔ (u < 48 ∨ 57 < u) := by
  rw [← Bool.not_eq_true, isDigit_iff]; omega

theorem hexValue_digit36 (d : Nat) (h : d < 16) : hexValue (digit36 d) = some d := by
  by_cases h10 : d < 10
  · have hd : isDigit (48 + d) = true := (isDigit_iff _).2 (by omega)
    simp [digit36, h10, hexValue, hd]
  · have hd : isDigit (87 + d) = false := (isDigit_false_iff _).2 (by omega)
    have h2 : 97 ≤ 87 + d ∧ 87 + d ≤ 102 := by omega
    simp [digit36, h10, hexValue, hd, h2]

theorem parseChars_cons (u : Nat) (rest : JsString) :
    parseChars (u :: rest) =
    if u = 0x22 then some ([], rest)
    else if u = 0x5C then
      match rest with
      | [] => none
      | e :: rest1 =>
        if e = 0x75 then
          match rest1 with
          | a :: b :: c :: d :: rest2 =>
            match hexValue a, hexValue b, hexValue c, hexValue d with
            | some a, some b, some c, some d =>
              (parseChars rest2).map fun p => ((4096 * a + 256 * b + 16 * c + d) :: p.1, p.2)
            | _, _, _, _ => none
          | _ => none
        else
          match unescape e with
          | some v => (parseChars rest1).map fun p => (v :: p.1, p.2)
          | none => none
    else if u < 0x20 then none
    else (parseChars rest).map fun p => (u :: p.1, p.2) := by
  rw [parseChars.eq_def]
  rfl

theorem parseChars_unicodeEscape (u : Nat) (h : u < 65536) (tail : JsString) :
    parseChars (unicodeEscape u ++ tail)
      = (parseChars tail).map fun p => (u :: p.1, p.2) := by
  have e : 4096 * (u / 4096 % 16) + 256 * (u / 256 % 16) + 16 * (u / 16 % 16) + u % 16 = u := by
    omega
  simp only [unicodeEscape, hex4, List.cons_append, List.nil_append]
  rw [parseChars_cons]
  simp [hexValue_digit36, Nat.mod_lt, e]

theorem parseChars_literal (u : Nat) (h1 : u ≠ 0x22) (h2 : u ≠ 0x5C) (h3 : ¬ u < 0x20)
    (tail : JsString) :
    parseChars (u :: tail) = (parseChars tail).map fun p => (u :: p.1, p.2) := by
  rw [parseChars_cons]
  simp [h1, h2, h3]

theorem parseChars_quoteUnit (u : Nat) (tail : JsString) :
    parseChars (quoteUnit u ++ tail) = (parseChars tail).map fun p => (u :: p.1, p.2) := by
  unfold quoteUnit
  split
  · next h => subst h; rw [List.cons_append, parseChars_cons]; simp [unescape]
  split
  · next h => subst h; rw [List.cons_append, parseChars_cons]; simp [unescape]
  split
  · next h => subst h; rw [List.cons_append, parseChars_cons]; simp [unescape]
  split
  · next h => subst h; rw [List.cons_append, parseChars_cons]; simp [unescape]
  split
  · next h => subst h; rw [List.cons_append, parseChars_cons]; simp [unescape]
  split
  · next h => subst h; rw [List.cons_append, parseChars_cons]; simp [unescape]
  split
  · next h => subst h; rw [List.cons_append, parseChars_cons]; simp [unescape]
  split
  · next h =>
    apply parseChars_unicodeEscape
    simp only [isHighSurrogate, isLowSurrogate, Bool.or_eq_true, decide_eq_true_eq,
      Bool.and_eq_true] at h
    omega
  · next h1 h2 h3 h4 h5 h6 h7 h =>
    simp only [isHighSurrogate, isLowSurrogate, Bool.or_eq_true, decide_eq_true_eq,
      Bool.and_eq_true, not_or, not_and] at h
    exact parseChars_literal u h6 h7 (by omega) tail

theorem parseChars_quoteUnits (s : JsString) :
    ∀ rest : JsString, parseChars (quoteUnits s ++ 0x22 :: rest) = some (s, rest) := by
  induction s using quoteUnits.induct with
  | case1 => intro rest; rw [quoteUnits, List.nil_append, parseChars_cons]; simp
  | case2 u =>
    intro rest
    rw [quoteUnits, parseChars_quoteUnit, parseChars_cons]
    simp
  | case3 u v r h ih =>
    intro rest
    simp only [isHighSurrogate, isLowSurrogate, Bool.and_eq_true, decide_eq_true_eq] at h
    rw [quoteUnits]
    simp only [isHighSurrogate, isLowSurrogate, Bool.and_eq_true, decide_eq_true_eq, h,
      and_self, if_true, List.cons_append]
    rw [parseChars_literal u (by omega) (by omega) (by omega),
      parseChars_literal v (by omega) (by omega) (by omega), ih rest]
    rfl
  | case4 u v r h ih =>
    intro rest
    rw [quoteUnits, if_neg h, List.append_assoc, parseChars_quoteUnit, ih rest]
    rfl

theorem radixDigits_ten (fuel : Nat) : ∀ n : Nat, n < fuel →
    (∀ d ∈ radixDigits 10 fuel n, d < 10) ∧
    (radixDigits 10 fuel n).foldl (fun acc d => 10 * acc + d) 0 = n ∧
    ∃ d rest, radixDigits 10 fuel n = d :: rest ∧ (n ≠ 0 → d ≠ 0) ∧ (n = 0 → rest = []) := by
  induction fuel with
  | zero => intro n h; omega
  | succ fuel ih =>
    intro n h
    by_cases hn : n < 10
    · simp only [radixDigits, hn, if_true]
      refine ⟨by simpa using hn, by simp, n, [], rfl, fun h0 => h0, fun _ => rfl⟩
    · simp only [radixDigits, hn, if_false]
      obtain ⟨h1, h2, d, rest, h3, h4, _⟩ := ih (n / 10) (by omega)
      refine ⟨?_, ?_, d, rest ++ [n % 10], by rw [h3]; rfl, ?_, ?_⟩
      · intro x hx
        rcases List.mem_append.1 hx with hx | hx
        · exact h1 x hx
        · simp only [List.mem_singleton] at hx
          omega
      · rw [List.foldl_append, h2]
        simp only [List.foldl_cons, List.foldl_nil]
        omega
      · intro _
        exact h4 (by omega)
      · intro h0
        omega

theorem takeWhile_digits (ds : List Nat) (hds : ∀ d ∈ ds, d < 10) (rest : JsString)
    (hrest : NumberEnd rest) :
    (ds.map (48 + ·) ++ rest).takeWhile isDigit = ds.map (48 + ·) ∧
    (ds.map (48 + ·) ++ rest).dropWhile isDigit = rest := by
  induction ds with
  | nil =>
    cases rest with
    | nil => simp
    | cons u r =>
      have := (hrest u r rfl).1
      simp [List.takeWhile_cons, List.dropWhile_cons, this]
  | cons d ds ih =>
    have hd : isDigit (48 + d) = true :=
      (isDigit_iff _).2 (by have := hds d (List.mem_cons_self _ _); omega)
    have := ih (fun x hx => hds x (List.mem_cons_of_mem _ hx))
    simp [List.takeWhile_cons, List.dropWhile_cons, hd, this.1, this.2]

theorem digitsValue_map (ds : List Nat) :
    digitsValue (ds.map (48 + ·)) = ds.foldl (fun acc d => 10 * acc + d) 0 := by
  unfold digitsValue
  rw [List.foldl_map]
  congr 1
  funext acc d
  omega

theorem parseFraction_end (rest : JsString) (h : NumberEnd rest) :
    parseFraction rest = some ([], rest) := by
  cases rest with
  | nil => rfl
  | cons u r =>
    have := (h u r rfl).2.1
    simp [parseFraction, this]

theorem parseExponent_end (rest : JsString) (h : NumberEnd rest) :
    parseExponent rest = some (0, rest) := by
  cases rest with
  | nil => rfl
  | cons u r =>
    have := (h u r rfl).2.2
    simp [parseExponent, this.1, this.2]

theorem parseNumber_decimal (n : Nat) (rest : JsString) (h : NumberEnd rest) :
    parseNumber (decimal n ++ rest) = some (.num false n 0, rest) := by
  obtain ⟨h1, h2, d, ds, h3, h4, h5⟩ := radixDigits_ten (n + 1) n (by omega)
  have hd : d < 10 := h1 d (by rw [h3]; exact List.mem_cons_self _ _)
  have hds : ∀ x ∈ ds, x < 10 := fun x hx => h1 x (by rw [h3]; exact List.mem_cons_of_mem _ hx)
  have hval : digitsValue ((48 + d) :: ds.map (48 + ·)) = n := by
    have := digitsValue_map (d :: ds)
    rw [List.map_cons] at this
    rw [this, ← h3, h2]
  have hdig : isDigit (48 + d) = true := (isDigit_iff _).2 (by omega)
  have hminus : 48 + d ≠ 0x2D := by omega
  unfold decimal
  rw [h3]
  simp only [List.map_cons, List.cons_append, parseNumber, hminus, if_false, parseUnsigned,
    hdig, if_true]
  by_cases h0 : 48 + d = 48
  · have hn : n = 0 := by
      by_contra hne
      exact h4 hne (by omega)
    have hnil := h5 hn
    subst hnil
    have hd0 : d = 0 := by omega
    subst hd0
    simp only [wholePart, List.map_nil, List.nil_append, if_true, parseFraction_end rest h,
      parseExponent_end rest h]
    rw [← hval]
    simp
  · have tw := takeWhile_digits ds hds rest h
    simp only [wholePart, h0, if_false, tw.1, tw.2, parseFraction_end rest h,
      parseExponent_end rest h]
    rw [← hval]
    simp

theorem Delimited.numberEnd {rest : JsString} (h : Delimited rest) : NumberEnd rest := by
  rcases h with rfl | ⟨u, r, rfl, hu⟩
  · intro u r he; cases he
  intro u' r' he
  simp only [List.cons.injEq] at he
  obtain ⟨rfl, rfl⟩ := he
  rcases hu with rfl | rfl | rfl <;> decide

theorem Delimited.skipSpace {rest : JsString} (h : Delimited rest) : skipSpace rest = rest := by
  rcases h with rfl | ⟨u, r, rfl, hu⟩
  · rfl
  apply skipSpace_cons
  rcases hu with rfl | rfl | rfl <;> decide

theorem parseValue_succ (fuel : Nat) (u : Nat) (rest : JsString) (hu : isJsonSpace u = false) :
    parseValue (fuel + 1) (u :: rest) =
      if u = 0x22 then (parseChars rest).map fun p => (.str p.1, p.2)
      else if u = 0x5B then
        match skipSpace rest with
        | [] => none
        | v :: rest1 =>
          if v = 0x5D then some (.arr [], rest1)
          else (parseItems fuel (v :: rest1)).map fun p => (.arr p.1, p.2)
      else if u = 0x7B then
        match skipSpace rest with
        | [] => none
        | v :: rest1 =>
          if v = 0x7D then some (.obj [], rest1)
          else (parseMembers fuel (v :: rest1)).map fun p => (.obj p.1, p.2)
      else if u = 0x2D ∨ isDigit u = true then parseNumber (u :: rest)
      else if (js "true").isPrefixOf (u :: rest) then some (.bool true, rest.drop 3)
      else if (js "false").isPrefixOf (u :: rest) then some (.bool false, rest.drop 4)
      else if (js "null").isPrefixOf (u :: rest) then some (.null, rest.drop 3)
      else none := by
  rw [parseValue.eq_def]
  simp only [skipSpace_cons u rest hu]

theorem parsesTo_string (s : JsString) : ParsesTo 1 (quoteJSONString s) (.str s) := by
  intro fuel hfuel rest _
  obtain ⟨f, rfl⟩ : ∃ f, fuel = f + 1 := ⟨fuel - 1, by omega⟩
  simp only [quoteJSONString, List.cons_append, List.append_assoc, List.singleton_append]
  rw [parseValue_succ f _ _ (by decide), if_pos rfl, parseChars_quoteUnits]
  rfl

theorem parsesTo_bool (b : Bool) :
    ParsesTo 1 (if b then js "true" else js "false") (.bool b) := by
  intro fuel hfuel rest _
  obtain ⟨f, rfl⟩ : ∃ f, fuel = f + 1 := ⟨fuel - 1, by omega⟩
  have ht : js "true" = [116, 114, 117, 101] := by decide
  have hf : js "false" = [102, 97, 108, 115, 101] := by decide
  cases b
  · simp only [Bool.false_eq_true, if_false, hf, List.cons_append, List.nil_append]
    rw [parseValue_succ f _ _ (by decide)]
    simp [ht, hf, isDigit]
  · simp only [if_true, ht, List.cons_append, List.nil_append]
    rw [parseValue_succ f _ _ (by decide)]
    simp [ht, isDigit]

theorem parsesTo_decimal (n : Nat) : ParsesTo 1 (decimal n) (.num false n 0) := by
  intro fuel hfuel rest hrest
  obtain ⟨f, rfl⟩ : ∃ f, fuel = f + 1 := ⟨fuel - 1, by omega⟩
  obtain ⟨h1, _, d, ds, h3, _, _⟩ := radixDigits_ten (n + 1) n (by omega)
  have hd : d < 10 := h1 d (by rw [h3]; exact List.mem_cons_self _ _)
  have hnum := parseNumber_decimal n rest hrest.numberEnd
  have hdec : decimal n = (48 + d) :: ds.map (48 + ·) := by
    unfold decimal
    rw [h3]
    rfl
  rw [hdec] at hnum ⊢
  have hdig : isDigit (48 + d) = true := (isDigit_iff _).2 (by omega)
  have hsp : isJsonSpace (48 + d) = false := by
    simp [isJsonSpace]
    omega
  rw [List.cons_append, parseValue_succ f _ _ hsp, if_neg (by omega), if_neg (by omega),
    if_neg (by omega), if_pos (Or.inr hdig)]
  exact hnum

theorem parseMembers_succ (fuel : Nat) (key tail : JsString) :
    parseMembers (fuel + 1) (quoteJSONString key ++ 0x3A :: tail) =
      match parseValue fuel tail with
      | none => none
      | some (v, rest3) =>
        match skipSpace rest3 with
        | [] => none
        | u :: rest4 =>
          if u = 0x2C then (parseMembers fuel rest4).map fun p => ((key, v) :: p.1, p.2)
          else if u = 0x7D then some ([(key, v)], rest4)
          else none := by
  rw [parseMembers.eq_def]
  simp only [quoteJSONString, List.cons_append, List.append_assoc, List.singleton_append,
    skipSpace_cons 0x22 _ (by decide), if_true, parseChars_quoteUnits, List.nil_append,
    skipSpace_cons 0x3A _ (by decide)]

theorem parseItems_succ (fuel : Nat) (input : JsString) :
    parseItems (fuel + 1) input =
      match parseValue fuel input with
      | none => none
      | some (v, rest) =>
        match skipSpace rest with
        | [] => none
        | u :: rest1 =>
          if u = 0x2C then (parseItems fuel rest1).map fun p => (v :: p.1, p.2)
          else if u = 0x5D then some ([v], rest1)
          else none := by
  rw [parseItems.eq_def]

theorem parseMembers_join (k : Nat) (ms : List (JsString × JsString × Json)) :
    ms ≠ [] → (∀ m ∈ ms, ParsesTo k m.2.1 m.2.2) →
    ∀ fuel, k + ms.length ≤ fuel → ∀ rest,
      parseMembers fuel
          (joinComma (ms.map fun m => quoteJSONString m.1 ++ 0x3A :: m.2.1) ++ 0x7D :: rest)
        = some (ms.map (fun m => (m.1, m.2.2)), rest) := by
  induction ms with
  | nil => intro h; exact absurd rfl h
  | cons m tl ih =>
    intro _ hms fuel hfuel rest
    simp only [List.length_cons] at hfuel
    obtain ⟨f, rfl⟩ : ∃ f, fuel = f + 1 := ⟨fuel - 1, by omega⟩
    have hm := hms m (List.mem_cons_self _ _)
    cases tl with
    | nil =>
      simp only [List.map_cons, List.map_nil, joinComma, List.append_assoc, List.cons_append]
      rw [parseMembers_succ, hm f (by omega) _ (Or.inr ⟨0x7D, rest, rfl, Or.inr (Or.inl rfl)⟩)]
      simp [skipSpace_cons 0x7D rest (by decide)]
    | cons m2 tl2 =>
      have ih2 := ih (by simp) (fun x hx => hms x (List.mem_cons_of_mem _ hx)) f
        (by simp only [List.length_cons] at hfuel ⊢; omega) rest
      simp only [List.map_cons, joinComma, List.append_assoc, List.cons_append] at ih2 ⊢
      rw [parseMembers_succ, hm f (by omega) _ (Or.inr ⟨0x2C, _, rfl, Or.inl rfl⟩)]
      simp only [skipSpace_cons 0x2C _ (by decide), if_true]
      rw [ih2]
      rfl

theorem parseItems_join (k : Nat) (xs : List (JsString × Json)) :
    xs ≠ [] → (∀ x ∈ xs, ParsesTo k x.1 x.2) →
    ∀ fuel, k + xs.length ≤ fuel → ∀ rest,
      parseItems fuel (joinComma (xs.map Prod.fst) ++ 0x5D :: rest)
        = some (xs.map Prod.snd, rest) := by
  induction xs with
  | nil => intro h; exact absurd rfl h
  | cons x tl ih =>
    intro _ hxs fuel hfuel rest
    simp only [List.length_cons] at hfuel
    obtain ⟨f, rfl⟩ : ∃ f, fuel = f + 1 := ⟨fuel - 1, by omega⟩
    have hx := hxs x (List.mem_cons_self _ _)
    cases tl with
    | nil =>
      simp only [List.map_cons, List.map_nil, joinComma]
      rw [parseItems_succ, hx f (by omega) _ (Or.inr ⟨0x5D, rest, rfl, Or.inr (Or.inr rfl)⟩)]
      simp [skipSpace_cons 0x5D rest (by decide)]
    | cons x2 tl2 =>
      have ih2 := ih (by simp) (fun y hy => hxs y (List.mem_cons_of_mem _ hy)) f
        (by simp only [List.length_cons] at hfuel ⊢; omega) rest
      simp only [List.map_cons, joinComma, List.append_assoc, List.cons_append] at ih2 ⊢
      rw [parseItems_succ, hx f (by omega) _ (Or.inr ⟨0x2C, _, rfl, Or.inl rfl⟩)]
      simp only [skipSpace_cons 0x2C _ (by decide), if_true]
      rw [ih2]
      rfl

theorem joinComma_head (u : Nat) (xs : List JsString) (hne : xs ≠ [])
    (h : ∀ x ∈ xs, ∃ tl, x = u :: tl) : ∃ tl, joinComma xs = u :: tl := by
  cases xs with
  | nil => exact absurd rfl hne
  | cons x rest =>
    obtain ⟨tl, rfl⟩ := h x (List.mem_cons_self _ _)
    cases rest with
    | nil => exact ⟨tl, rfl⟩
    | cons y ys => exact ⟨_, rfl⟩

theorem parsesTo_object (k : Nat) (ms : List (JsString × JsString × Json)) (hne : ms ≠ [])
    (hms : ∀ m ∈ ms, ParsesTo k m.2.1 m.2.2) :
    ParsesTo (k + ms.length + 1)
      (0x7B :: joinComma (ms.map fun m => quoteJSONString m.1 ++ 0x3A :: m.2.1) ++ [0x7D])
      (.obj (ms.map fun m => (m.1, m.2.2))) := by
  intro fuel hfuel rest _
  obtain ⟨f, rfl⟩ : ∃ f, fuel = f + 1 := ⟨fuel - 1, by omega⟩
  have hjoin := parseMembers_join k ms hne hms f (by omega) rest
  obtain ⟨tl, htl⟩ := joinComma_head 0x22
    (ms.map fun m => quoteJSONString m.1 ++ 0x3A :: m.2.1) (by simpa using hne) (by
      intro x hx
      obtain ⟨m, _, rfl⟩ := List.mem_map.1 hx
      exact ⟨_, rfl⟩)
  rw [htl] at hjoin
  simp only [List.cons_append, List.append_assoc, List.singleton_append, List.nil_append,
    htl] at hjoin ⊢
  rw [parseValue_succ f _ _ (by decide), if_neg (by decide), if_neg (by decide), if_pos rfl]
  simp only [skipSpace_cons 0x22 _ (by decide), if_neg (show (0x22 : Nat) ≠ 0x7D by decide),
    hjoin]
  rfl

theorem parsesTo_array (k : Nat) (xs : List (JsString × Json)) (hne : xs ≠ [])
    (hxs : ∀ x ∈ xs, ParsesTo k x.1 x.2) (hhead : ∀ x ∈ xs, ∃ tl, x.1 = 0x7B :: tl) :
    ParsesTo (k + xs.length + 1) (0x5B :: joinComma (xs.map Prod.fst) ++ [0x5D])
      (.arr (xs.map Prod.snd)) := by
  intro fuel hfuel rest _
  obtain ⟨f, rfl⟩ : ∃ f, fuel = f + 1 := ⟨fuel - 1, by omega⟩
  have hjoin := parseItems_join k xs hne hxs f (by omega) rest
  obtain ⟨tl, htl⟩ := joinComma_head 0x7B (xs.map Prod.fst) (by simpa using hne) (by
      intro x hx
      obtain ⟨y, hy, rfl⟩ := List.mem_map.1 hx
      exact hhead y hy)
  rw [htl] at hjoin
  simp only [List.cons_append, List.append_assoc, List.singleton_append, List.nil_append,
    htl] at hjoin ⊢
  rw [parseValue_succ f _ _ (by decide), if_neg (by decide), if_pos rfl]
  simp only [skipSpace_cons 0x7B _ (by decide), if_neg (show (0x7B : Nat) ≠ 0x5D by decide),
    hjoin]
  rfl

theorem ParsesTo.mono {k k2 : Nat} {text : JsString} {v : Json} (h : ParsesTo k text v)
    (hk : k ≤ k2) : ParsesTo k2 text v :=
  fun fuel hfuel rest hrest => h fuel (by omega) rest hrest

theorem taskMembers_eq (t : Task) :
    taskMembers t = (taskTriples t).map fun m => quoteJSONString m.1 ++ 0x3A :: m.2.1 := by
  unfold taskMembers taskTriples
  cases t.due <;> rfl

theorem toJson_eq (t : Task) :
    t.toJson = .obj ((taskTriples t).map fun m => (m.1, m.2.2)) := by
  unfold Task.toJson taskTriples
  cases t.due <;> rfl

theorem taskTriples_parse (t : Task) : ∀ m ∈ taskTriples t, ParsesTo 1 m.2.1 m.2.2 := by
  intro m hm
  unfold taskTriples at hm
  have base : ∀ m ∈ [(js "id", quoteJSONString t.id, Json.str t.id),
      (js "text", quoteJSONString t.text, Json.str t.text),
      (js "completed", if t.completed then js "true" else js "false", Json.bool t.completed),
      (js "createdAt", decimal t.createdAt, Json.num false t.createdAt 0)],
      ParsesTo 1 m.2.1 m.2.2 := by
    intro m hm
    simp only [List.mem_cons, List.mem_singleton, List.not_mem_nil, or_false] at hm
    rcases hm with rfl | rfl | rfl | rfl
    · exact parsesTo_string _
    · exact parsesTo_string _
    · exact parsesTo_bool _
    · exact parsesTo_decimal _
  rcases List.mem_append.1 hm with h | h
  · exact base m h
  · cases hdue : t.due with
    | none => rw [hdue] at h; simp at h
    | some d =>
      rw [hdue] at h
      simp only [List.mem_singleton] at h
      subst h
      exact parsesTo_string _

theorem taskTriples_length (t : Task) : (taskTriples t).length ≤ 5 ∧ taskTriples t ≠ [] := by
  unfold taskTriples
  cases t.due <;> simp

theorem parsesTo_task (t : Task) : ParsesTo 7 (stringifyTask t) t.toJson := by
  have h := parsesTo_object 1 (taskTriples t) (taskTriples_length t).2 (taskTriples_parse t)
  rw [← taskMembers_eq, ← toJson_eq] at h
  exact h.mono (by have := (taskTriples_length t).1; omega)

theorem joinComma_length (xs : List JsString) (h : ∀ x ∈ xs, 2 ≤ x.length) :
    2 * xs.length ≤ (joinComma xs).length := by
  induction xs with
  | nil => simp [joinComma]
  | cons x tl ih =>
    have hx := h x (List.mem_cons_self _ _)
    have ih2 := ih (fun y hy => h y (List.mem_cons_of_mem _ hy))
    cases tl with
    | nil => simpa [joinComma] using hx
    | cons y ys =>
      simp only [joinComma, List.length_append, List.length_cons] at ih2 ⊢
      omega

theorem parse_stringify (c : List Task) : parse (stringify c) = some (todosToJson c) := by
  cases c with
  | nil => rfl
  | cons t tl =>
    have harr := parsesTo_array 7 ((t :: tl).map fun t => (stringifyTask t, t.toJson)) (by simp)
      (by
        intro x hx
        obtain ⟨y, _, rfl⟩ := List.mem_map.1 hx
        exact parsesTo_task y)
      (by
        intro x hx
        obtain ⟨y, _, rfl⟩ := List.mem_map.1 hx
        exact ⟨_, rfl⟩)
    simp only [List.map_map, List.length_map] at harr
    have e1 : (Prod.fst ∘ fun t : Task => (stringifyTask t, t.toJson)) = stringifyTask := rfl
    have e2 : (Prod.snd ∘ fun t : Task => (stringifyTask t, t.toJson)) = Task.toJson := rfl
    rw [e1, e2] at harr
    have hlen := joinComma_length ((t :: tl).map stringifyTask) (by
      intro x hx
      obtain ⟨y, _, rfl⟩ := List.mem_map.1 hx
      simp [stringifyTask])
    simp only [List.length_map] at hlen
    have hfuel : 7 + (t :: tl).length + 1 ≤ 2 * (stringify (t :: tl)).length + 2 := by
      simp only [stringify, List.length_cons, List.length_append, List.length_nil] at hlen ⊢
      omega
    have hval := harr _ hfuel [] (Or.inl rfl)
    rw [List.append_nil] at hval
    have hs : 0x5B :: joinComma ((t :: tl).map stringifyTask) ++ [0x5D] = stringify (t :: tl) :=
      rfl
    rw [hs] at hval
    unfold parse
    rw [hval]
    rfl

theorem toJson_injective (a b : Task) (h : a.toJson = b.toJson) : a = b := by
  obtain ⟨i1, t1, c1, n1, d1⟩ := a
  obtain ⟨i2, t2, c2, n2, d2⟩ := b
  cases d1 <;> cases d2 <;> simp [Task.toJson] at h <;>
    simp [h]

theorem todosToJson_injective (a b : List Task) (h : todosToJson a = todosToJson b) :
    a = b := by
  simp only [todosToJson, Json.arr.injEq] at h
  exact List.map_injective_iff.2 (fun x y => toJson_injective x y) h

theorem skipSpace_length (s : JsString) : (skipSpace s).length ≤ s.length :=
  (List.dropWhile_sublist isJsonSpace).length_le

theorem dropDigits_length (s : JsString) : (s.dropWhile isDigit).length ≤ s.length :=
  (List.dropWhile_sublist isDigit).length_le

theorem parseChars_shorter (n : Nat) : ∀ s : JsString, s.length ≤ n →
    ∀ p, parseChars s = some p → p.2.length < s.length := by
  induction n with
  | zero =>
    intro s hs p hp
    cases s with
    | nil => simp [parseChars] at hp
    | cons u rest => simp at hs
  | succ n ih =>
    intro s hs p hp
    cases s with
    | nil => simp [parseChars] at hp
    | cons u rest =>
      simp only [List.length_cons] at hs ⊢
      have step : ∀ (tail : JsString) (w : Nat), tail.length ≤ rest.length →
          Option.map (fun q : JsString × JsString => (w :: q.1, q.2)) (parseChars tail) = some p →
          p.2.length < rest.length + 1 := by
        intro tail w htail hq
        cases hc : parseChars tail with
        | none => rw [hc] at hq; simp at hq
        | some q =>
          rw [hc] at hq
          simp only [Option.map_some', Option.some.injEq] at hq
          have := ih tail (by omega) q hc
          rw [← hq]
          simp only
          omega
      rw [parseChars_cons] at hp
      split at hp
      · simp only [Option.some.injEq] at hp
        subst hp
        simp
      · split at hp
        · split at hp
          · simp at hp
          · next e rest1 =>
            split at hp
            · split at hp
              · next a b c d rest2 =>
                split at hp
                · exact step rest2 _ (by simp only [List.length_cons]; omega) hp
                · simp at hp
              · simp at hp
            · split at hp
              · exact step rest1 _ (by simp only [List.length_cons]; omega) hp
              · simp at hp
        · split at hp
          · simp at hp
          · exact step rest u (le_refl _) hp

theorem parseFraction_length (s : JsString) (p : List Nat × JsString)
    (h : parseFraction s = some p) : p.2.length ≤ s.length := by
  unfold parseFraction at h
  split at h
  · simp only [Option.some.injEq] at h
    subst h
    simp
  · next u r =>
    split at h
    · split at h
      · simp at h
      · simp only [Option.some.injEq] at h
        subst h
        have := dropDigits_length r
        simp only [List.length_cons]
        omega
    · simp only [Option.some.injEq] at h
      subst h
      simp

theorem exponentSign_length (r : JsString) : (exponentSign r).2.length ≤ r.length := by
  unfold exponentSign
  split
  · simp
  · split
    · simp
    · split <;> simp

theorem parseExponent_length (s : JsString) (p : Int × JsString)
    (h : parseExponent s = some p) : p.2.length ≤ s.length := by
  unfold parseExponent at h
  split at h
  · simp only [Option.some.injEq] at h
    subst h
    simp
  · next u r =>
    split at h
    · simp only at h
      split at h
      · simp at h
      · simp only [Option.some.injEq] at h
        subst h
        have h1 := exponentSign_length r
        have h2 := dropDigits_length (exponentSign r).2
        simp only [List.length_cons]
        omega
    · simp only [Option.some.injEq] at h
      subst h
      simp

theorem wholePart_length (d : Nat) (r : JsString) : (wholePart d r).2.length ≤ r.length := by
  unfold wholePart
  split
  · simp
  · exact dropDigits_length r

theorem parseUnsigned_shorter (negative : Bool) (s : JsString) (p : Json × JsString)
    (h : parseUnsigned negative s = some p) : p.2.length < s.length := by
  unfold parseUnsigned at h
  split at h
  · simp at h
  · next d r =>
    split at h
    · simp only at h
      split at h
      · simp at h
      · next fraction s3 hf =>
        split at h
        · simp at h
        · next e s4 he =>
          simp only [Option.some.injEq] at h
          subst h
          have h1 := parseFraction_length _ _ hf
          have h2 := parseExponent_length _ _ he
          have h3 := wholePart_length d r
          simp only [List.length_cons] at h1 h2 ⊢
          omega
    · simp at h

theorem parseNumber_shorter (s : JsString) (p : Json × JsString)
    (h : parseNumber s = some p) : p.2.length < s.length := by
  unfold parseNumber at h
  split at h
  · simp at h
  · next u r =>
    split at h
    · have := parseUnsigned_shorter _ _ _ h
      simp only [List.length_cons]
      omega
    · exact parseUnsigned_shorter _ _ _ h

theorem map_snd_eq {α β : Type} (g : α → β) (o : Option (α × JsString)) (p : β × JsString)
    (h : o.map (fun q => (g q.1, q.2)) = some p) : ∃ q, o = some q ∧ q.2 = p.2 := by
  cases o with
  | none => simp at h
  | some q =>
    simp only [Option.map_some', Option.some.injEq] at h
    exact ⟨q, rfl, by rw [← h]⟩

theorem parseValue_unfold (fuel : Nat) (input : JsString) :
    parseValue (fuel + 1) input =
      match skipSpace input with
      | [] => none
      | u :: rest =>
        if u = 0x22 then (parseChars rest).map fun p => (.str p.1, p.2)
        else if u = 0x5B then
          match skipSpace rest with
          | [] => none
          | v :: rest1 =>
            if v = 0x5D then some (.arr [], rest1)
            else (parseItems fuel (v :: rest1)).map fun p => (.arr p.1, p.2)
        else if u = 0x7B then
          match skipSpace rest with
          | [] => none
          | v :: rest1 =>
            if v = 0x7D then some (.obj [], rest1)
            else (parseMembers fuel (v :: rest1)).map fun p => (.obj p.1, p.2)
        else if u = 0x2D ∨ isDigit u = true then parseNumber (u :: rest)
        else if (js "true").isPrefixOf (u :: rest) then some (.bool true, rest.drop 3)
        else if (js "false").isPrefixOf (u :: rest) then some (.bool false, rest.drop 4)
        else if (js "null").isPrefixOf (u :: rest) then some (.null, rest.drop 3)
        else none := by
  rw [parseValue.eq_def]

theorem parseMembers_unfold (fuel : Nat) (input : JsString) :
    parseMembers (fuel + 1) input =
      match skipSpace input with
      | [] => none
      | q :: rest =>
        if q = 0x22 then
          match parseChars rest with
          | none => none
          | some (key, rest1) =>
            match skipSpace rest1 with
            | [] => none
            | c :: rest2 =>
              if c = 0x3A then
                match parseValue fuel rest2 with
                | none => none
                | some (v, rest3) =>
                  match skipSpace rest3 with
                  | [] => none
                  | u :: rest4 =>
                    if u = 0x2C then
                      (parseMembers fuel rest4).map fun p => ((key, v) :: p.1, p.2)
                    else if u = 0x7D then some ([(key, v)], rest4)
                    else none
              else none
        else none := by
  rw [parseMembers.eq_def]

theorem parse_shorter (fuel : Nat) :
    (∀ input p, parseValue fuel input = some p → p.2.length < input.length) ∧
    (∀ input p, parseItems fuel input = some p → p.2.length < input.length) ∧
    (∀ input p, parseMembers fuel input = some p → p.2.length < input.length) := by
  induction fuel with
  | zero =>
    refine ⟨?_, ?_, ?_⟩ <;> intro input p h
    · simp [parseValue] at h
    · simp [parseItems] at h
    · simp [parseMembers] at h
  | succ f ih =>
    obtain ⟨ihV, ihI, ihM⟩ := ih
    refine ⟨?_, ?_, ?_⟩
    · intro input p h
      rw [parseValue_unfold] at h
      have hsk := skipSpace_length input
      split at h
      · simp at h
      · next u rest hs =>
        rw [hs] at hsk
        simp only [List.length_cons] at hsk
        split at h
        · obtain ⟨q, hq, hq2⟩ := map_snd_eq _ _ _ h
          have := parseChars_shorter _ rest (le_refl _) q hq
          rw [← hq2]
          omega
        split at h
        · have hsk2 := skipSpace_length rest
          split at h
          · simp at h
          · next v rest1 hs2 =>
            rw [hs2] at hsk2
            simp only [List.length_cons] at hsk2
            split at h
            · simp only [Option.some.injEq] at h
              subst h
              simp only
              omega
            · obtain ⟨q, hq, hq2⟩ := map_snd_eq _ _ _ h
              have := ihI _ q hq
              simp only [List.length_cons] at this
              rw [← hq2]
              omega
        split at h
        · have hsk2 := skipSpace_length rest
          split at h
          · simp at h
          · next v rest1 hs2 =>
            rw [hs2] at hsk2
            simp only [List.length_cons] at hsk2
            split at h
            · simp only [Option.some.injEq] at h
              subst h
              simp only
              omega
            · obtain ⟨q, hq, hq2⟩ := map_snd_eq _ _ _ h
              have := ihM _ q hq
              simp only [List.length_cons] at this
              rw [← hq2]
              omega
        split at h
        · have := parseNumber_shorter _ _ h
          simp only [List.length_cons] at this
          omega
        split at h
        · simp only [Option.some.injEq] at h
          subst h
          simp only [List.length_drop]
          omega
        split at h
        · simp only [Option.some.injEq] at h
          subst h
          simp only [List.length_drop]
          omega
        split at h
        · simp only [Option.some.injEq] at h
          subst h
          simp only [List.length_drop]
          omega
        · simp at h
    · intro input p h
      rw [parseItems_succ] at h
      split at h
      · simp at h
      · next v rest hv =>
        have h1 := ihV _ _ hv
        have hsk := skipSpace_length rest
        simp only at h1
        split at h
        · simp at h
        · next u rest1 hs =>
          rw [hs] at hsk
          simp only [List.length_cons] at hsk
          split at h
          · obtain ⟨q, hq, hq2⟩ := map_snd_eq _ _ _ h
            have := ihI _ q hq
            rw [← hq2]
            omega
          split at h
          · simp only [Option.some.injEq] at h
            subst h
            simp only
            omega
          · simp at h
    · intro input p h
      rw [parseMembers_unfold] at h
      have hsk := skipSpace_length input
      split at h
      · simp at h
      · next q rest hs =>
        rw [hs] at hsk
        simp only [List.length_cons] at hsk
        split at h
        · split at h
          · simp at h
          · next key rest1 hk =>
            have h1 := parseChars_shorter _ rest (le_refl _) _ hk
            simp only at h1
            have hsk1 := skipSpace_length rest1
            split at h
            · simp at h
            · next c rest2 hs1 =>
              rw [hs1] at hsk1
              simp only [List.length_cons] at hsk1
              split at h
              · split at h
                · simp at h
                · next v rest3 hv =>
                  have h3 := ihV _ _ hv
                  simp only at h3
                  have hsk3 := skipSpace_length rest3
                  split at h
                  · simp at h
                  · next u rest4 hs3 =>
                    rw [hs3] at hsk3
                    simp only [List.length_cons] at hsk3
                    split at h
                    · obtain ⟨q2, hq, hq2⟩ := map_snd_eq _ _ _ h
                      have := ihM _ q2 hq
                      rw [← hq2]
                      omega
                    split at h
                    · simp only [Option.some.injEq] at h
                      subst h
                      simp only
                      omega
                    · simp at h
              · simp at h
        · simp at h

theorem parse_stable (fuel : Nat) :
    (∀ input : JsString, 2 * input.length + 1 ≤ fuel →
      parseValue (fuel + 1) input = parseValue fuel input) ∧
    (∀ input : JsString, 2 * input.length + 2 ≤ fuel →
      parseItems (fuel + 1) input = parseItems fuel input) ∧
    (∀ input : JsString, 2 * input.length + 2 ≤ fuel →
      parseMembers (fuel + 1) input = parseMembers fuel input) := by
  induction fuel with
  | zero =>
    refine ⟨?_, ?_, ?_⟩ <;> intro input h <;> omega
  | succ f ih =>
    obtain ⟨ihV, ihI, ihM⟩ := ih
    refine ⟨?_, ?_, ?_⟩
    · intro input hlen
      rw [parseValue_unfold (f + 1), parseValue_unfold f]
      have hsk := skipSpace_length input
      cases hs : skipSpace input with
      | nil => rfl
      | cons u rest =>
        rw [hs] at hsk
        simp only [List.length_cons] at hsk
        have hsk2 := skipSpace_length rest
        simp only
        by_cases h1 : u = 0x22
        · simp only [h1, if_true]
        simp only [h1, if_false]
        by_cases h2 : u = 0x5B
        · simp only [h2, if_true]
          cases hs2 : skipSpace rest with
          | nil => rfl
          | cons v rest1 =>
            rw [hs2] at hsk2
            simp only [List.length_cons] at hsk2
            simp only
            by_cases h3 : v = 0x5D
            · simp only [h3, if_true]
            · simp only [h3, if_false]
              rw [ihI (v :: rest1) (by simp only [List.length_cons]; omega)]
        simp only [h2, if_false]
        by_cases h4 : u = 0x7B
        · simp only [h4, if_true]
          cases hs2 : skipSpace rest with
          | nil => rfl
          | cons v rest1 =>
            rw [hs2] at hsk2
            simp only [List.length_cons] at hsk2
            simp only
            by_cases h3 : v = 0x7D
            · simp only [h3, if_true]
            · simp only [h3, if_false]
              rw [ihM (v :: rest1) (by simp only [List.length_cons]; omega)]
        simp only [h4, if_false]
    · intro input hlen
      rw [parseItems_succ (f + 1), parseItems_succ f, ihV input (by omega)]
      cases hv : parseValue f input with
      | none => rfl
      | some p =>
        obtain ⟨v, rest⟩ := p
        have h1 := (parse_shorter f).1 _ _ hv
        simp only at h1 ⊢
        have hsk := skipSpace_length rest
        cases hs : skipSpace rest with
        | nil => rfl
        | cons u rest1 =>
          rw [hs] at hsk
          simp only [List.length_cons] at hsk
          simp only
          by_cases h2 : u = 0x2C
          · simp only [h2, if_true]
            rw [ihI rest1 (by omega)]
          · simp only [h2, if_false]
    · intro input hlen
      rw [parseMembers_unfold (f + 1), parseMembers_unfold f]
      have hsk := skipSpace_length input
      cases hs : skipSpace input with
      | nil => rfl
      | cons q rest =>
        rw [hs] at hsk
        simp only [List.length_cons] at hsk
        simp only
        by_cases h1 : q = 0x22
        · simp only [h1, if_true]
          cases hk : parseChars rest with
          | none => rfl
          | some p =>
            obtain ⟨key, rest1⟩ := p
            have hk1 := parseChars_shorter _ rest (le_refl _) _ hk
            simp only at hk1 ⊢
            have hsk1 := skipSpace_length rest1
            cases hs1 : skipSpace rest1 with
            | nil => rfl
            | cons c rest2 =>
              rw [hs1] at hsk1
              simp only [List.length_cons] at hsk1
              simp only
              by_cases h2 : c = 0x3A
              · simp only [h2, if_true]
                rw [ihV rest2 (by omega)]
                cases hv : parseValue f rest2 with
                | none => rfl
                | some p2 =>
                  obtain ⟨v, rest3⟩ := p2
                  have h3 := (parse_shorter f).1 _ _ hv
                  simp only at h3 ⊢
                  have hsk3 := skipSpace_length rest3
                  cases hs3 : skipSpace rest3 with
                  | nil => rfl
                  | cons u rest4 =>
                    rw [hs3] at hsk3
                    simp only [List.length_cons] at hsk3
                    simp only
                    by_cases h4 : u = 0x2C
                    · simp only [h4, if_true]
                      rw [ihM rest4 (by omega)]
                    · simp only [h4, if_false]
              · simp only [h2, if_false]
        · simp only [h1, if_false]

/-- The depth bound used by `parse` is never the reason for a failure: a larger
bound gives the same result. -/
theorem parseValue_bound_enough (input : JsString) (extra : Nat) :
    parseValue (2 * input.length + 2 + extra) input
      = parseValue (2 * input.length + 2) input := by
  induction extra with
  | zero => rfl
  | succ e ih =>
    rw [← ih]
    exact (parse_stable (2 * input.length + 2 + e)).1 input (by omega)

theorem radixDigits_last (fuel : Nat) : ∀ n : Nat, n < fuel →
    ∃ pre, radixDigits 36 fuel n = pre ++ [n % 36] := by
  cases fuel with
  | zero => intro n h; omega
  | succ f =>
    intro n _
    by_cases hn : n < 36
    · exact ⟨[], by simp [radixDigits, hn, Nat.mod_eq_of_lt hn]⟩
    · exact ⟨radixDigits 36 f (n / 36), by simp only [radixDigits, hn, if_false]⟩

theorem radixDigits_step (fuel n : Nat) (hn : 36 ≤ n) :
    radixDigits 36 (fuel + 1) n = radixDigits 36 fuel (n / 36) ++ [n % 36] := by
  have : ¬ n < 36 := by omega
  simp only [radixDigits, this, if_false]

theorem radixDigits_last4 (fuel n : Nat) (h : n < fuel) (hn : 46656 ≤ n) :
    ∃ pre, radixDigits 36 fuel n
      = pre ++ [n / 46656 % 36, n / 1296 % 36, n / 36 % 36, n % 36] := by
  obtain ⟨f3, rfl⟩ : ∃ f3, fuel = f3 + 3 := ⟨fuel - 3, by omega⟩
  obtain ⟨pre, hpre⟩ := radixDigits_last f3 (n / 36 / 36 / 36) (by omega)
  refine ⟨pre, ?_⟩
  rw [radixDigits_step _ n (by omega), radixDigits_step _ (n / 36) (by omega),
    radixDigits_step _ (n / 36 / 36) (by omega), hpre]
  have e1 : n / 36 / 36 / 36 % 36 = n / 46656 % 36 := by omega
  have e2 : n / 36 / 36 % 36 = n / 1296 % 36 := by omega
  rw [e1, e2]
  simp

theorem slice_last4 (pre l4 : JsString) (h : l4.length = 4) :
    slice (pre ++ l4) (-4) none = l4 := by
  unfold slice
  simp only [List.length_append, h, Nat.cast_add, Nat.cast_ofNat]
  have hneg : ((-4 : Int) < 0) := by decide
  simp only [hneg, if_true]
  have e1 : max ((pre.length : Int) + 4 + -4) 0 = (pre.length : Int) := by omega
  rw [e1]
  have e2 : ((pre.length : Int) + 4 - (pre.length : Int)).toNat = 4 := by omega
  rw [e2, Int.toNat_ofNat, List.drop_left]
  rw [← h, List.take_length]

theorem timePart_eq (n : Nat) (hn : 46656 ≤ n) :
    slice (toString36 n) (-4) none
      = [digit36 (n / 46656 % 36), digit36 (n / 1296 % 36), digit36 (n / 36 % 36),
          digit36 (n % 36)] := by
  obtain ⟨pre, hpre⟩ := radixDigits_last4 (n + 1) n (by omega) hn
  unfold toString36
  rw [hpre, List.map_append]
  exact slice_last4 _ _ rfl

theorem digit36_inj (a b : Nat) (ha : a < 36) (hb : b < 36) (h : digit36 a = digit36 b) :
    a = b := by
  unfold digit36 at h
  split at h <;> split at h <;> omega

/-- Two calls of `uid` at clock readings of at least `36^3` (four digits in radix
36) give the same id exactly when they keep the same random characters and
their clock readings are congruent modulo `36^4`. -/
theorem uid_eq_iff (r1 r2 : JsString) (n1 n2 : Nat) (h1 : 46656 ≤ n1) (h2 : 46656 ≤ n2) :
    uid r1 n1 = uid r2 n2 ↔
      slice r1 2 (some 10) = slice r2 2 (some 10) ∧ n1 % 1679616 = n2 % 1679616 := by
  unfold uid
  rw [timePart_eq n1 h1, timePart_eq n2 h2]
  constructor
  · intro h
    obtain ⟨hr, ht⟩ := List.append_inj' h rfl
    refine ⟨hr, ?_⟩
    simp only [List.cons.injEq, and_true] at ht
    obtain ⟨d3, d2, d1, d0⟩ := ht
    have a3 := digit36_inj _ _ (Nat.mod_lt _ (by decide)) (Nat.mod_lt _ (by decide)) d3
    have a2 := digit36_inj _ _ (Nat.mod_lt _ (by decide)) (Nat.mod_lt _ (by decide)) d2
    have a1 := digit36_inj _ _ (Nat.mod_lt _ (by decide)) (Nat.mod_lt _ (by decide)) d1
    have a0 := digit36_inj _ _ (Nat.mod_lt _ (by decide)) (Nat.mod_lt _ (by decide)) d0
    omega
  · rintro ⟨hr, hm⟩
    have a3 : n1 / 46656 % 36 = n2 / 46656 % 36 := by omega
    have a2 : n1 / 1296 % 36 = n2 / 1296 % 36 := by omega
    have a1 : n1 / 36 % 36 = n2 / 36 % 36 := by omega
    have a0 : n1 % 36 = n2 % 36 := by omega
    rw [hr, a3, a2, a1, a0]

theorem step_ids_subset (s : State) (a : Action)
    (ha : ∀ env text due, a ≠ .add env text due) :
    ∀ i ∈ (step s a).todos.map Task.id, i ∈ s.todos.map Task.id := by
  cases a with
  | add env text due => exact absurd rfl (ha env text due)
  | toggle id completed =>
    simp only [step, toggleTodo]
    split
    · simp only [save]
      rw [assignFirst_ids]
      · exact fun i hi => hi
      · intro t; rfl
    · exact fun i hi => hi
  | delete id =>
    simp only [step, deleteTodo]
    split
    · simp only [save]
      exact fun i hi => ((List.eraseIdx_sublist _ _).map _).subset hi
    · exact fun i hi => hi
  | editText id newText =>
    simp only [step, updateTodoText]
    split
    · split
      · exact fun i hi => hi
      · simp only [save]
        rw [assignFirst_ids]
        · exact fun i hi => hi
        · intro t; rfl
    · exact fun i hi => hi
  | editDue id newDue =>
    simp only [step, updateTodoDue]
    split
    · simp only [save]
      rw [assignFirst_ids]
      · exact fun i hi => hi
      · intro t; rfl
    · exact fun i hi => hi
  | clear =>
    simp only [step, clearCompleted_todos]
    exact fun i hi => ((List.filter_sublist _).map _).subset hi

theorem freshIds_of_drawn (actions : List Action) :
    ∀ s : State,
      (∀ i ∈ s.todos.map Task.id,
        i ∉ (addEnvs actions).map fun e => uid e.random36 e.nowUid) →
      ((addEnvs actions).map fun e => uid e.random36 e.nowUid).Nodup →
      freshIds s actions = true := by
  induction actions with
  | nil => intro s _ _; rfl
  | cons a rest ih =>
    intro s hdis hnd
    have other : (∀ env text due, a ≠ .add env text due) → addEnvs (a :: rest) = addEnvs rest →
        freshIds s (a :: rest) = freshIds (step s a) rest → freshIds s (a :: rest) = true := by
      intro hne he hf
      rw [hf]
      rw [he] at hdis hnd
      exact ih _ (fun i hi => hdis i (step_ids_subset s a hne i hi)) hnd
    cases a with
    | add env text due =>
      simp only [addEnvs, List.map_cons, List.nodup_cons, List.mem_cons, not_or] at hdis hnd
      simp only [freshIds, Bool.and_eq_true, decide_eq_true_eq]
      refine ⟨fun hmem => (hdis _ hmem).1 rfl, ih _ ?_ hnd.2⟩
      intro i hi
      simp only [addTodo, save, List.map_cons, List.mem_cons] at hi
      rcases hi with rfl | hi
      · exact hnd.1
      · exact (hdis i hi).2
    | toggle id completed => exact other (by intro e t d h; cases h) rfl rfl
    | delete id => exact other (by intro e t d h; cases h) rfl rfl
    | editText id newText => exact other (by intro e t d h; cases h) rfl rfl
    | editDue id newDue => exact other (by intro e t d h; cases h) rfl rfl
    | clear => exact other (by intro e t d h; cases h) rfl rfl

theorem drawn_nodup (envs : List AddEnv) (hclock : ∀ env ∈ envs, 36 ^ 3 ≤ env.nowUid)
    (hkeys : (envs.map idKey).Nodup) :
    (envs.map fun e => uid e.random36 e.nowUid).Nodup := by
  rw [List.Nodup, List.pairwise_map] at hkeys ⊢
  refine hkeys.imp_of_mem ?_
  intro a b ha hb hne heq
  apply hne
  have h1 : 46656 ≤ a.nowUid := hclock a ha
  have h2 : 46656 ≤ b.nowUid := hclock b hb
  obtain ⟨hr, hm⟩ := (uid_eq_iff _ _ _ _ h1 h2).1 heq
  simp only [idKey, Prod.mk.injEq]
  exact ⟨hr, hm⟩

/-! ## The claims -/

set_option maxRecDepth 8192

/-- C1: for a text whose trimmed form is non-empty, `addTodo` (and the submit
listener, which then calls it) leaves the collection as one new task followed
by the previous collection in its order; the new task is not completed, its
text is the trimmed input, its due is the given due, or the empty string when
none is given; the new collection is what is persisted. -/
theorem addTodo_inserts_front (env : AddEnv) (text : JsString) (due : Option JsString)
    (s : State) (h : trim text ≠ []) :
    ∃ t : Task, (addTodo env text due s).todos = t :: s.todos ∧
      t.completed = false ∧ t.text = trim text ∧ t.text ≠ [] ∧
      (∀ d, due = some d → t.due = some d) ∧ (due = none → t.due = some []) ∧
      t.id = uid env.random36 env.nowUid ∧ t.createdAt = env.nowCreated ∧
      (addTodo env text due s).storage = some (stringify (t :: s.todos)) ∧
      ∀ dueValue, submit env text dueValue s = addTodo env text (some dueValue) s := by
  refine ⟨_, rfl, rfl, rfl, h, ?_, ?_, rfl, rfl, rfl, ?_⟩
  · rintro d rfl; rfl
  · rintro rfl; rfl
  · intro dueValue
    have : (trim text).isEmpty = false := by
      cases hq : trim text with
      | nil => exact absurd hq h
      | cons _ _ => rfl
    simp [submit, this]

/-- Instance of C1: adding the text " buy milk " with no due date to a
collection of one task. -/
theorem addTodo_inserts_front_witness :
    ∃ t : Task,
      (addTodo ⟨js "0.i", 1700000000000, 1700000000001⟩ (js " buy milk ") none
        ⟨[⟨js "a", js "call mom", true, 5, some []⟩], none, 0⟩).todos
        = t :: [⟨js "a", js "call mom", true, 5, some []⟩] ∧
      t.completed = false ∧ t.text = trim (js " buy milk ") ∧ t.text ≠ [] ∧
      (∀ d, (none : Option JsString) = some d → t.due = some d) ∧
      ((none : Option JsString) = none → t.due = some []) ∧
      t.id = uid (js "0.i") 1700000000000 ∧ t.createdAt = 1700000000001 ∧
      (addTodo ⟨js "0.i", 1700000000000, 1700000000001⟩ (js " buy milk ") none
        ⟨[⟨js "a", js "call mom", true, 5, some []⟩], none, 0⟩).storage
        = some (stringify (t :: [⟨js "a", js "call mom", true, 5, some []⟩])) ∧
      ∀ dueValue,
        submit ⟨js "0.i", 1700000000000, 1700000000001⟩ (js " buy milk ") dueValue
          ⟨[⟨js "a", js "call mom", true, 5, some []⟩], none, 0⟩
        = addTodo ⟨js "0.i", 1700000000000, 1700000000001⟩ (js " buy milk ")
          (some dueValue) ⟨[⟨js "a", js "call mom", true, 5, some []⟩], none, 0⟩ :=
  addTodo_inserts_front _ _ _ _ (by decide)

/-- C2: for a text whose trimmed form is empty, the add operation is a no-op.
The submit listener, the only caller of `addTodo` and the place of the guard
`if (!text.trim()) return`, returns before calling it: the state (collection,
storage, number of writes) is unchanged. -/
theorem submit_blank_noop (env : AddEnv) (inputValue dueValue : JsString) (s : State)
    (h : trim inputValue = []) : submit env inputValue dueValue s = s := by
  simp [submit, h]

/-- Instance of C2: submitting a text of blanks and a tab. -/
theorem submit_blank_noop_witness :
    trim (js "  \t ") = [] ∧
    submit ⟨js "0.i", 7, 8⟩ (js "  \t ") (js "2024-01-01")
      ⟨[⟨js "a", js "call mom", true, 5, some []⟩], none, 0⟩
      = ⟨[⟨js "a", js "call mom", true, 5, some []⟩], none, 0⟩ :=
  ⟨by decide, submit_blank_noop _ _ _ _ (by decide)⟩

/-- C3: for a filter among all, active and completed, `filteredTodos` returns
exactly the tasks of the collection whose lower-cased text contains the
lower-cased trimmed search text and whose completed flag matches the filter,
in the order of the collection; an empty trimmed search text is matched by
every task. -/
theorem filteredTodos_spec (toLowerCase : JsString → JsString) (ui : Ui) (todos : List Task)
    (hlower : toLowerCase [] = [])
    (hmode : ui.filter = js "all" ∨ ui.filter = js "active" ∨ ui.filter = js "completed") :
    filteredTodos toLowerCase ui todos
        = todos.filter (fun t => decide (MatchesSpec toLowerCase ui t)) ∧
      (∀ t, t ∈ filteredTodos toLowerCase ui todos ↔ t ∈ todos ∧ MatchesSpec toLowerCase ui t) ∧
      (trim ui.search = [] →
        ∀ t ∈ todos, toLowerCase (trim ui.search) <:+: toLowerCase t.text) ∧
      (filteredTodos toLowerCase ui todos).Sublist todos := by
  have heq : filteredTodos toLowerCase ui todos
      = todos.filter (fun t => decide (MatchesSpec toLowerCase ui t)) := by
    unfold filteredTodos
    simp only
    congr 1
    funext t
    exact filter_pred_eq toLowerCase ui t hmode
  refine ⟨heq, ?_, ?_, ?_⟩
  · intro t
    rw [heq, List.mem_filter, decide_eq_true_eq]
  · intro h t _
    rw [h, hlower]
    exact List.nil_infix
  · rw [heq]
    exact List.filter_sublist _

/-- Instance of C3: the filter example of the spec, with the search text
" MILK " and the filter all. -/
theorem filteredTodos_spec_witness :
    filteredTodos asciiLower ⟨js "all", js " MILK "⟩ exampleTodos
        = exampleTodos.filter
            (fun t => decide (MatchesSpec asciiLower ⟨js "all", js " MILK "⟩ t)) ∧
      (∀ t, t ∈ filteredTodos asciiLower ⟨js "all", js " MILK "⟩ exampleTodos ↔
        t ∈ exampleTodos ∧ MatchesSpec asciiLower ⟨js "all", js " MILK "⟩ t) ∧
      (trim (js " MILK ") = [] →
        ∀ t ∈ exampleTodos, asciiLower (trim (js " MILK ")) <:+: asciiLower t.text) ∧
      (filteredTodos asciiLower ⟨js "all", js " MILK "⟩ exampleTodos).Sublist exampleTodos :=
  filteredTodos_spec asciiLower ⟨js "all", js " MILK "⟩ exampleTodos (by decide) (by decide)

/-- The filter examples of the spec: filter active, filter completed, and the
search text "milk" under filter all. -/
theorem filteredTodos_examples :
    filteredTodos asciiLower ⟨js "active", js ""⟩ exampleTodos
        = [⟨js "1", js "buy milk", false, 1, some []⟩] ∧
      filteredTodos asciiLower ⟨js "completed", js ""⟩ exampleTodos
        = [⟨js "2", js "call mom", true, 2, some []⟩] ∧
      filteredTodos asciiLower ⟨js "all", js "milk"⟩ exampleTodos
        = [⟨js "1", js "buy milk", false, 1, some []⟩] := by
  decide

/-- C4: `updateTodoText` changes the state only when a task with the id exists
and the trimmed new text is non-empty; the first task with that id then gets
the trimmed text and the collection is persisted.  When no task has the id, or
the new text is empty or white space only, the whole state is unchanged. -/
theorem updateTodoText_spec (id newText : JsString) (s : State) :
    (∀ t, s.todos.find? (fun x => x.id = id) = some t → trim newText ≠ [] →
      ∃ pre post, s.todos = pre ++ t :: post ∧ (∀ x ∈ pre, x.id ≠ id) ∧ t.id = id ∧
        (updateTodoText id newText s).todos
          = pre ++ { t with text := trim newText } :: post ∧
        (updateTodoText id newText s).storage
          = some (stringify (pre ++ { t with text := trim newText } :: post)) ∧
        (updateTodoText id newText s).writes = s.writes + 1) ∧
      ((∀ t ∈ s.todos, t.id ≠ id) → updateTodoText id newText s = s) ∧
      (trim newText = [] → updateTodoText id newText s = s) ∧
      updateTodoText id [] s = s ∧ updateTodoText id (js "   ") s = s := by
  have hblank : ∀ txt : JsString, trim txt = [] → updateTodoText id txt s = s := by
    intro txt h
    unfold updateTodoText
    split
    · simp [h]
    · rfl
  refine ⟨?_, ?_, hblank newText, hblank [] rfl, hblank _ (by decide)⟩
  · intro t ht hne
    obtain ⟨pre, post, h1, h2, h3, h4⟩ :=
      assignFirst_split id (fun t => { t with text := trim newText }) s.todos t ht
    have hemp : (trim newText).isEmpty = false := by
      cases hq : trim newText with
      | nil => exact absurd hq hne
      | cons _ _ => rfl
    refine ⟨pre, post, h1, h2, h3, ?_, ?_, ?_⟩ <;>
      simp [updateTodoText, ht, hemp, save, h4]
  · intro h
    unfold updateTodoText
    rw [(find_none_iff id s.todos).2 h]

/-- Instance of C4: editing the text of the second task of the example, an
edit with an unknown id and an edit with a blank text. -/
theorem updateTodoText_spec_witness :
    (∃ pre post, exampleTodos = pre ++ ⟨js "2", js "call mom", true, 2, some []⟩ :: post ∧
        (∀ x ∈ pre, x.id ≠ js "2") ∧ js "2" = js "2" ∧
        (updateTodoText (js "2") (js " call dad ") ⟨exampleTodos, none, 0⟩).todos
          = pre ++ ⟨js "2", trim (js " call dad "), true, 2, some []⟩ :: post ∧
        (updateTodoText (js "2") (js " call dad ") ⟨exampleTodos, none, 0⟩).storage
          = some (stringify (pre ++ ⟨js "2", trim (js " call dad "), true, 2, some []⟩ :: post)) ∧
        (updateTodoText (js "2") (js " call dad ") ⟨exampleTodos, none, 0⟩).writes = 0 + 1) ∧
    updateTodoText (js "3") (js "x") ⟨exampleTodos, none, 0⟩ = ⟨exampleTodos, none, 0⟩ ∧
    updateTodoText (js "2") (js " \n ") ⟨exampleTodos, none, 0⟩ = ⟨exampleTodos, none, 0⟩ :=
  ⟨(updateTodoText_spec (js "2") (js " call dad ") ⟨exampleTodos, none, 0⟩).1
      ⟨js "2", js "call mom", true, 2, some []⟩ (by decide) (by decide),
    (updateTodoText_spec (js "3") (js "x") ⟨exampleTodos, none, 0⟩).2.1 (by decide),
    (updateTodoText_spec (js "2") (js " \n ") ⟨exampleTodos, none, 0⟩).2.2.1 (by decide)⟩

/-- C5: `toggleTodo`, `updateTodoText` and `updateTodoDue` keep the length of
the collection and the sequence of ids, leave every task with another id as it
is at its position, and leave the whole state unchanged when no task has the
id. -/
theorem mutations_frame (id : JsString) (completed : Bool) (newText : JsString)
    (newDue : Option JsString) (s : State) :
    ∀ op ∈ [toggleTodo id completed, updateTodoText id newText, updateTodoDue id newDue],
      (op s).todos.length = s.todos.length ∧
      (op s).todos.map Task.id = s.todos.map Task.id ∧
      (∀ (i : Nat) (t : Task), s.todos[i]? = some t → t.id ≠ id → (op s).todos[i]? = some t) ∧
      ((∀ t ∈ s.todos, t.id ≠ id) → op s = s) := by
  have frame : ∀ f : Task → Task, (∀ t, (f t).id = t.id) →
      (assignFirst id f s.todos).length = s.todos.length ∧
      (assignFirst id f s.todos).map Task.id = s.todos.map Task.id ∧
      (∀ (i : Nat) (t : Task), s.todos[i]? = some t → t.id ≠ id →
        (assignFirst id f s.todos)[i]? = some t) :=
    fun f hf => ⟨assignFirst_length id f _, assignFirst_ids id f hf _, assignFirst_others id f _⟩
  intro op hop
  simp only [List.mem_cons, List.mem_singleton, List.not_mem_nil, or_false] at hop
  rcases hop with rfl | rfl | rfl
  · refine ⟨?_, ?_, ?_, ?_⟩
    · unfold toggleTodo; split
      · exact (frame _ (by intro t; rfl)).1
      · rfl
    · unfold toggleTodo; split
      · exact (frame _ (by intro t; rfl)).2.1
      · rfl
    · unfold toggleTodo; split
      · exact (frame _ (by intro t; rfl)).2.2
      · intro i t h _; exact h
    · intro h
      unfold toggleTodo
      rw [(find_none_iff id s.todos).2 h]
  · refine ⟨?_, ?_, ?_, ?_⟩
    · unfold updateTodoText; split
      · split
        · rfl
        · exact (frame _ (by intro t; rfl)).1
      · rfl
    · unfold updateTodoText; split
      · split
        · rfl
        · exact (frame _ (by intro t; rfl)).2.1
      · rfl
    · unfold updateTodoText; split
      · split
        · intro i t h _; exact h
        · exact (frame _ (by intro t; rfl)).2.2
      · intro i t h _; exact h
    · intro h
      unfold updateTodoText
      rw [(find_none_iff id s.todos).2 h]
  · refine ⟨?_, ?_, ?_, ?_⟩
    · unfold updateTodoDue; split
      · exact (frame _ (by intro t; rfl)).1
      · rfl
    · unfold updateTodoDue; split
      · exact (frame _ (by intro t; rfl)).2.1
      · rfl
    · unfold updateTodoDue; split
      · exact (frame _ (by intro t; rfl)).2.2
      · intro i t h _; exact h
    · intro h
      unfold updateTodoDue
      rw [(find_none_iff id s.todos).2 h]

/-- Instance of C5: toggling the second task of the example leaves the first
one in place, and toggling an unknown id changes nothing. -/
theorem mutations_frame_witness :
    (toggleTodo (js "2") false ⟨exampleTodos, none, 0⟩).todos[0]?
        = some ⟨js "1", js "buy milk", false, 1, some []⟩ ∧
      toggleTodo (js "3") true ⟨exampleTodos, none, 0⟩ = ⟨exampleTodos, none, 0⟩ :=
  ⟨(mutations_frame (js "2") false [] none ⟨exampleTodos, none, 0⟩ _
      (List.mem_cons_self _ _)).2.2.1 0 _ (by decide) (by decide),
    (mutations_frame (js "3") true [] none ⟨exampleTodos, none, 0⟩ _
      (List.mem_cons_self _ _)).2.2.2 (by decide)⟩

/-- C6: on a collection with pairwise distinct ids, after `deleteTodo` no task
has the id and the collection is exactly the tasks with another id, unchanged
and in their order; when no task has the id the whole state is unchanged. -/
theorem deleteTodo_spec (id : JsString) (s : State) (h : (s.todos.map Task.id).Nodup) :
    (∀ t ∈ (deleteTodo id s).todos, t.id ≠ id) ∧
      (deleteTodo id s).todos = s.todos.filter (fun t => t.id ≠ id) ∧
      ((∀ t ∈ s.todos, t.id ≠ id) → deleteTodo id s = s) := by
  have heq : (deleteTodo id s).todos = s.todos.filter (fun t => t.id ≠ id) := by
    unfold deleteTodo
    split
    · next i hi => exact eraseIdx_findIndex id s.todos h i hi
    · next hi =>
      have hall := (findIndex_none_iff id s.todos).1 hi
      symm
      rw [List.filter_eq_self]
      intro t ht
      simpa using hall t ht
  refine ⟨?_, heq, ?_⟩
  · intro t ht
    rw [heq, List.mem_filter] at ht
    simpa using ht.2
  · intro hall
    unfold deleteTodo
    rw [(findIndex_none_iff id s.todos).2 hall]

/-- Instance of C6: deleting the first task of the example. -/
theorem deleteTodo_spec_witness :
    (exampleTodos.map Task.id).Nodup ∧
    (∀ t ∈ (deleteTodo (js "1") ⟨exampleTodos, none, 0⟩).todos, t.id ≠ js "1") ∧
      (deleteTodo (js "1") ⟨exampleTodos, none, 0⟩).todos
        = exampleTodos.filter (fun t => t.id ≠ js "1") ∧
      ((∀ t ∈ exampleTodos, t.id ≠ js "1") →
        deleteTodo (js "1") ⟨exampleTodos, none, 0⟩ = ⟨exampleTodos, none, 0⟩) :=
  ⟨by decide, deleteTodo_spec (js "1") ⟨exampleTodos, none, 0⟩ (by decide)⟩

/-- C7: `clearCompleted` leaves the tasks that are not completed, in their
order; a second call right after the first gives the same state, so it writes
nothing; a call writes to storage exactly when the collection shrank. -/
theorem clearCompleted_idempotent (s : State) :
    (clearCompleted s).todos = s.todos.filter (fun t => !t.completed) ∧
      clearCompleted (clearCompleted s) = clearCompleted s ∧
      (clearCompleted (clearCompleted s)).writes = (clearCompleted s).writes ∧
      ((clearCompleted s).writes ≠ s.writes ↔
        (clearCompleted s).todos.length < s.todos.length) ∧
      ((clearCompleted s).writes = s.writes ∨ (clearCompleted s).writes = s.writes + 1) := by
  have htodos := clearCompleted_todos s
  have hfix : ∀ s' : State, (s'.todos.filter (fun t => !t.completed)) = s'.todos →
      clearCompleted s' = s' := by
    intro s' h
    unfold clearCompleted
    simp [h]
  have hidem : clearCompleted (clearCompleted s) = clearCompleted s := by
    apply hfix
    rw [htodos, List.filter_filter]
    simp
  have hle := List.length_filter_le (fun t : Task => !t.completed) s.todos
  refine ⟨htodos, hidem, by rw [hidem], ?_, ?_⟩
  · rw [htodos]
    unfold clearCompleted
    simp only
    split
    · next hne =>
      simp only [save]
      constructor
      · intro _; omega
      · intro _; omega
    · next heq =>
      simp only [ne_eq, not_not] at heq
      simp only [ne_eq, not_true_eq_false, false_iff]
      omega
  · unfold clearCompleted
    simp only
    split
    · right; rfl
    · left; rfl

/-- C8, as stated, fails: two calls of `addTodo` in which `Math.random()`
returns 0.5 (printed `0.i` in radix 36) and the clock readings lie `36^4`
milliseconds apart keep the same random characters and the same clock reading
modulo `36^4`, and draw the same id `i3v28`, so the collection holds two tasks
with one id. -/
theorem uid_collision :
    (1700000000000 : Nat) ≠ 1700000000000 + 36 ^ 4 ∧
    idKey ⟨js "0.i", 1700000000000, 1700000000000⟩
      = idKey ⟨js "0.i", 1700000000000 + 36 ^ 4, 1700000000000 + 36 ^ 4⟩ ∧
    ((run (initial none)
      [.add ⟨js "0.i", 1700000000000, 1700000000000⟩ (js "buy milk") none,
       .add ⟨js "0.i", 1700000000000 + 36 ^ 4, 1700000000000 + 36 ^ 4⟩ (js "call mom") none]
      ).todos.map Task.id) = [js "i3v28", js "i3v28"] ∧
    ¬ ((run (initial none)
      [.add ⟨js "0.i", 1700000000000, 1700000000000⟩ (js "buy milk") none,
       .add ⟨js "0.i", 1700000000000 + 36 ^ 4, 1700000000000 + 36 ^ 4⟩ (js "call mom") none]
      ).todos.map Task.id).Nodup := by
  decide

/-- C8 (amended): two calls of `uid` at clock readings of at least `36^3`
milliseconds draw the same id exactly when they keep the same characters 2 to
10 of the random text and their clock readings are congruent modulo `36^4`.
Starting from the empty collection, after every sequence of actions in which no
two `addTodo` calls agree on both, the ids of the collection are pairwise
distinct. -/
theorem ids_nodup_of_distinct_draws (storage : Option JsString) (actions : List Action)
    (hclock : ∀ env ∈ addEnvs actions, 36 ^ 3 ≤ env.nowUid)
    (hkeys : ((addEnvs actions).map idKey).Nodup) :
    ((run (initial storage) actions).todos.map Task.id).Nodup ∧
    ∀ e1 ∈ addEnvs actions, ∀ e2 ∈ addEnvs actions,
      (uid e1.random36 e1.nowUid = uid e2.random36 e2.nowUid ↔ idKey e1 = idKey e2) := by
  refine ⟨?_, ?_⟩
  · exact run_ids_nodup actions (initial storage) List.nodup_nil
      (freshIds_of_drawn actions _ (by intro i hi; simp [initial] at hi)
        (drawn_nodup _ hclock hkeys))
  · intro e1 h1 e2 h2
    rw [uid_eq_iff _ _ _ _ (hclock e1 h1) (hclock e2 h2)]
    simp only [idKey, Prod.mk.injEq]
    exact Iff.rfl

/-- Instance of C8 (amended): two additions with the same random text at clock
readings five milliseconds apart, a toggle, a deletion and a clear. -/
theorem ids_nodup_of_distinct_draws_witness :
    (∀ env ∈ addEnvs
      [.add ⟨js "0.i", 1700000000000, 1700000000000⟩ (js "buy milk") none,
       .add ⟨js "0.i", 1700000000005, 1700000000005⟩ (js "call mom") none,
       .toggle (js "i3v28") true, .delete (js "none"), .clear], 36 ^ 3 ≤ env.nowUid) ∧
    ((addEnvs
      [.add ⟨js "0.i", 1700000000000, 1700000000000⟩ (js "buy milk") none,
       .add ⟨js "0.i", 1700000000005, 1700000000005⟩ (js "call mom") none,
       .toggle (js "i3v28") true, .delete (js "none"), .clear]).map idKey).Nodup ∧
    ((run (initial none)
      [.add ⟨js "0.i", 1700000000000, 1700000000000⟩ (js "buy milk") none,
       .add ⟨js "0.i", 1700000000005, 1700000000005⟩ (js "call mom") none,
       .toggle (js "i3v28") true, .delete (js "none"), .clear]).todos.map Task.id).Nodup :=
  ⟨by decide, by decide,
    (ids_nodup_of_distinct_draws none _ (by decide) (by decide)).1⟩

/-- C9: the code departs from the claim.  A stored blob that is valid JSON but
not a list of task records is not replaced by the empty collection: for the
blobs `null` and `{"a":1}`, `load` assigns the parsed value, which is not an
array at all, although `todos` is declared an array of task records and the
`catch` clause resets it to the empty array. -/
theorem load_keeps_wrong_structure :
    load (.item (js "null")) = .returned .null ∧
    load (.item (js "\x7b\"a\":1\x7d")) = .returned (.obj [(js "a", .num false 1 0)]) ∧
    (∀ items, Json.null ≠ .arr items) ∧
    (∀ items, Json.obj [(js "a", .num false 1 0)] ≠ .arr items) ∧
    load (.item (js "null")) ≠ .returned (.arr []) ∧
    load (.item (js "\x7b\"a\":1\x7d")) ≠ .returned (.arr []) := by
  have h1 : load (.item (js "null")) = .returned .null := by rfl
  have h2 : load (.item (js "\x7b\"a\":1\x7d")) = .returned (.obj [(js "a", .num false 1 0)]) := by
    rfl
  refine ⟨h1, h2, ?_, ?_, ?_, ?_⟩
  · intro items h; exact Json.noConfusion h
  · intro items h; exact Json.noConfusion h
  · rw [h1]; intro h; exact Json.noConfusion (Outcome.returned.inj h)
  · rw [h2]; intro h; exact Json.noConfusion (Outcome.returned.inj h)

/-- A stored text that is valid JSON is assigned to `todos` as parsed. -/
theorem load_parsed (raw : JsString) (v : Json) (hne : raw ≠ []) (hp : parse raw = some v) :
    load (.item raw) = .returned v := by
  cases raw with
  | nil => exact absurd rfl hne
  | cons u r => simp [load, jsonParse, hp]

/-- The function `load` never throws, and it assigns the empty collection when
storage cannot be read, when the key is missing, when the stored text is empty
and when the stored text is not valid JSON (`JSON.parse` throws). -/
theorem load_total (read : StorageRead) :
    (∃ v, load read = .returned v) ∧
    (read = .denied ∨ read = .missing ∨ read = .item [] → load read = .returned (.arr [])) ∧
    (∀ raw, read = .item raw → parse raw = none → load read = .returned (.arr [])) := by
  refine ⟨?_, ?_, ?_⟩
  · unfold load
    simp only
    split
    · exact ⟨_, rfl⟩
    · exact ⟨_, rfl⟩
  · rintro (rfl | rfl | rfl) <;> rfl
  · rintro raw rfl hp
    cases raw with
    | nil => rfl
    | cons u r => simp [load, jsonParse, hp]

/-- Two instances: a missing key and a truncated text. -/
theorem load_total_witness :
    load .missing = .returned (.arr []) ∧
    parse (js "[\x7b\"id\":\"i3v28\",\"text\":\"buy") = none ∧
    load (.item (js "[\x7b\"id\":\"i3v28\",\"text\":\"buy")) = .returned (.arr []) :=
  ⟨(load_total .missing).2.1 (Or.inr (Or.inl rfl)), by rfl,
    (load_total (.item (js "[\x7b\"id\":\"i3v28\",\"text\":\"buy"))).2.2 _ rfl (by rfl)⟩

/-- C10: after `save`, `load` on the written storage returns the JSON value of
the collection that was saved, and of no other collection: the same tasks with
the same id, text, completed, createdAt and due, in the same order. -/
theorem save_load_roundtrip (s : State) :
    (save s).storage = some (stringify s.todos) ∧
    load (readStorage (save s)) = .returned (todosToJson s.todos) ∧
    ∀ c : List Task, load (readStorage (save s)) = .returned (todosToJson c) → c = s.todos := by
  have hload : load (readStorage (save s)) = .returned (todosToJson s.todos) := by
    have hread : readStorage (save s) = .item (stringify s.todos) := rfl
    have hne : (stringify s.todos).isEmpty = false := rfl
    rw [hread]
    unfold load jsonParse
    simp only [parse_stringify, hne]
    rfl
  refine ⟨rfl, hload, ?_⟩
  intro c hc
  rw [hload] at hc
  simp only [Outcome.returned.injEq] at hc
  exact todosToJson_injective _ _ hc.symm

/-- Instance of C10: saving the example collection and loading it back. -/
theorem save_load_roundtrip_witness :
    load (readStorage (save ⟨exampleTodos, none, 0⟩)) = .returned (todosToJson exampleTodos) ∧
    ∀ c : List Task,
      load (readStorage (save ⟨exampleTodos, none, 0⟩)) = .returned (todosToJson c) →
        c = exampleTodos :=
  (save_load_roundtrip ⟨exampleTodos, none, 0⟩).2

end TodoApp
